import Mathlib

/-!
Verification development for the `cnysa` async-resource visualizer.

The TypeScript source (`src/index.ts`, `src/assemble.ts`, `src/stack-trace.ts`)
is shallowly embedded here:

* JS strings are modeled as `List Char`; terminal color styling (the `chalk`
  library) is the identity on text in a non-TTY environment, so styled text is
  modeled as the plain characters and the color arguments are carried as data
  where the source passes them (the `(chalk.red(' ').length - 1)` gutter
  adjustments are therefore `0`, exactly as in a color-less terminal).
* JS arrays used as stacks (`push`/`pop`/last element) keep their element
  order: push appends at the end, pop drops the last element.
* The registry `this.resources` is a JS object with integer-like keys, which
  enumerates its keys in ascending numeric order; it is modeled as an
  association list kept sorted by key.
* `Date.now()`, `async_hooks` ids, captured call stacks and the
  `executionAsyncId` are inputs from the host runtime and appear as explicit
  parameters of the hook handlers.
* `RegExp` type filters are modeled as boolean predicates on strings.
* The recursive `hasAncestor` and the ancestry-walk loop of
  `createAsyncStackTrace` terminate in JS only because `parents` reference
  strictly earlier ids; the embedding uses explicit fuel, with theorems showing
  fuel-independence on well-formed registries.
-/

namespace CnysaModel

/-- The last element of a JS array (`array[array.length - 1]`), `none` when empty;
this is the `top` helper of `src/index.ts`. -/
def jsTop {α : Type} (xs : List α) : Option α := xs.getLast?

/-- Model of `Array.prototype.pop` on a JS array used as a stack: drop the last element
(no-op on an empty array). -/
def jsPop {α : Type} (xs : List α) : List α := xs.dropLast

/-- Terminal colors passed to `chalk`; presentation-only data. -/
inductive Color where
  | green | blue | red | gray | cyan | magenta | yellow
deriving DecidableEq, Repr

/-- The event kinds appearing in the event log (`this.events[..].type`), plus
the `'pad'` pseudo-kind inserted by `createAsyncSnapshot`. -/
inductive EventType where
  | init | before | after | destroy | promiseResolve | internal | pad
deriving DecidableEq, Repr

/-- One captured stack frame (a `NodeJS.CallSite`): optional function name,
file name, line number. -/
structure Frame where
  functionName : Option (List Char)
  fileName : List Char
  lineNumber : Nat
deriving DecidableEq, Repr

/-- A captured stack trace (`StackTrace = NodeJS.CallSite[]`). -/
abbrev StackTrace : Type := List Frame

/-- The `CnysaResource` record stored in `this.resources`. -/
structure CnysaResource where
  tid : Option Nat
  uid : Nat
  type : List Char
  internal : Bool
  custom : Bool
  parents : List Nat
  stack : List Frame
deriving DecidableEq, Repr

/-- One entry of the event log. `uid` is an `Int` because the `'pad'`
pseudo-events of `createAsyncSnapshot` carry `uid = -1`. -/
structure CnysaEvent where
  timestamp : Nat
  uid : Int
  type : EventType
deriving DecidableEq, Repr

/-- One entry of `this.currentScopes`. -/
structure Scope where
  id : Nat
  stack : List Frame
deriving DecidableEq, Repr

/-- A type filter (the model of a `RegExp` tested against a type string). -/
def Pattern : Type := List Char → Bool

/-- The partially-specified options object (`Flexible<CnysaOptions>`): absent
keys are `none`. -/
structure CnysaOptionsP where
  width : Option Nat := none
  ignoreTypes : Option Pattern := none
  roots : Option (List Nat) := none
  padding : Option Nat := none
  format : Option (List Char) := none

/-- Fully-canonicalized snapshot options (`CnysaSnapshotOptions`). -/
structure SnapshotConfig where
  width : Nat
  ignoreTypes : Pattern
  roots : List Nat
  padding : Nat
  format : List Char

/-- Fully-canonicalized stack-trace options (`CnysaStackTraceOptions`). -/
structure StackTraceConfig where
  ignoreTypes : Pattern

/-- The mutable state of a `Cnysa` instance. -/
structure CnysaState where
  resources : List (Nat × CnysaResource)
  currentScopes : List Scope
  events : List CnysaEvent
  globalContinuationEnded : Bool
  ignoreResources : Nat
  globalOptions : CnysaOptionsP

/-- Store `this.resources[uid] = r`, keeping the association list sorted by key
(JS objects enumerate integer-like keys in ascending order). -/
def insertRes (rs : List (Nat × CnysaResource)) (uid : Nat) (r : CnysaResource) :
    List (Nat × CnysaResource) :=
  match rs with
  | [] => [(uid, r)]
  | (k, v) :: rest =>
    if uid < k then (uid, r) :: (k, v) :: rest
    else if uid = k then (uid, r) :: rest
    else (k, v) :: insertRes rest uid r

/-- Read `this.resources[uid]` (`none` models JS `undefined`). -/
def lookupRes (rs : List (Nat × CnysaResource)) (uid : Nat) : Option CnysaResource :=
  match rs with
  | [] => none
  | (k, v) :: rest => if uid = k then some v else lookupRes rest uid

/-- Model of `Object.keys(this.resources)` as numbers, in ascending order. -/
def resKeys (rs : List (Nat × CnysaResource)) : List Nat := rs.map (·.1)

/-- The state built by the `Cnysa` constructor: root pseudo-resource `1`,
one root `before` event, root scope open. -/
def initialState (now0 : Nat) (opts : CnysaOptionsP) : CnysaState :=
  { resources := [(1, { tid := none, uid := 1, type := "(initial)".data,
                        internal := true, custom := false, parents := [], stack := [] })],
    currentScopes := [{ id := 1, stack := [] }],
    events := [{ timestamp := now0, uid := 1, type := .before }],
    globalContinuationEnded := false,
    ignoreResources := 0,
    globalOptions := opts }

/-- The `init` hook handler. `rawStack` is the raw `createStackTrace()` result
(the handler itself slices off 4 frames); `isMark` is
`resource instanceof CnysaMarkResource`, `isCustom` is
`resource instanceof ah.AsyncResource`. -/
def hookInit (s : CnysaState) (now uid : Nat) (ty : List Char) (triggerId eid : Nat)
    (rawStack : List Frame) (isMark isCustom : Bool) : CnysaState :=
  if s.ignoreResources ≠ 0 then
    { s with ignoreResources := s.ignoreResources - 1 }
  else
    let stack := rawStack.drop 4
    let res : CnysaResource :=
      { tid := none, uid := uid, type := ty, internal := isMark, custom := isCustom,
        parents := s.currentScopes.map (·.id), stack := stack }
    if isMark then
      { s with resources := insertRes s.resources uid res,
               events := s.events ++ [{ timestamp := now, uid := uid, type := .internal }] }
    else
      let res := if triggerId ≠ eid then { res with tid := some triggerId } else res
      { s with resources := insertRes s.resources uid res,
               events := s.events ++ [{ timestamp := now, uid := uid, type := .init }] }

/-- The `before` hook handler. -/
def hookBefore (s : CnysaState) (now uid : Nat) (rawStack : List Frame) : CnysaState :=
  match lookupRes s.resources uid with
  | none => s
  | some r =>
    if r.internal then s
    else
      let s1 :=
        if !s.globalContinuationEnded && !r.custom then
          { s with globalContinuationEnded := true,
                   events := s.events ++ [{ timestamp := now, uid := 1, type := .after }],
                   currentScopes := jsPop s.currentScopes }
        else s
      { s1 with events := s1.events ++ [{ timestamp := now, uid := uid, type := .before }],
                currentScopes := s1.currentScopes ++ [{ id := uid, stack := rawStack.drop 4 }] }

/-- The `after` hook handler. -/
def hookAfter (s : CnysaState) (now uid : Nat) : CnysaState :=
  match lookupRes s.resources uid with
  | none => s
  | some r =>
    if r.internal then s
    else
      { s with events := s.events ++ [{ timestamp := now, uid := uid, type := .after }],
               currentScopes := jsPop s.currentScopes }

/-- The `destroy` hook handler. -/
def hookDestroy (s : CnysaState) (now uid : Nat) : CnysaState :=
  match lookupRes s.resources uid with
  | none => s
  | some r =>
    if r.internal then s
    else
      { s with events := s.events ++ [{ timestamp := now, uid := uid, type := .destroy }] }

/-- The `promiseResolve` hook handler (appends unconditionally). -/
def hookPromiseResolve (s : CnysaState) (now uid : Nat) : CnysaState :=
  { s with events := s.events ++ [{ timestamp := now, uid := uid, type := .promiseResolve }] }

/-- Model of `Cnysa#ignoreNext`: sets the ignore counter (`undefined` argument means 1). -/
def ignoreNext (s : CnysaState) (numResources : Option Nat) : CnysaState :=
  { s with ignoreResources := numResources.getD 1 }

/-- Model of `Cnysa#mark(tag)`: constructing a `CnysaMarkResource` fires the `init` hook
with type `"(" + tag + ")"` (a mark is both a `CnysaMarkResource` and an
`ah.AsyncResource`), then `emitDestroy()` fires the `destroy` hook. -/
def mark (s : CnysaState) (now uid triggerId eid : Nat) (tag : List Char)
    (rawStack : List Frame) : CnysaState :=
  hookDestroy (hookInit s now uid ('(' :: tag ++ [')']) triggerId eid rawStack true true) now uid

/-- The ancestry constraint of `Cnysa#hasAncestor`: either a `RegExp` (a type
pattern) or an explicit id list (`number[]`). -/
inductive Constraint where
  | pattern (p : Pattern)
  | ids (l : List Nat)

/-- The resource read `this.resources[parent]` performed inside `hasAncestor`'s
predicate; `hasAncestor` is only ever reached with parents present in the
registry (a missing parent would crash the JS), so the default is irrelevant
under well-formedness. -/
def getRes (rs : List (Nat × CnysaResource)) (uid : Nat) : CnysaResource :=
  (lookupRes rs uid).getD
    { tid := none, uid := 0, type := [], internal := false, custom := false,
      parents := [], stack := [] }

/-- Model of `Cnysa#hasAncestor`, with explicit fuel standing in for the JS recursion
(which terminates because `parents` only reference strictly earlier ids; the
claim-C7 theorem proves fuel-independence for fuel at least the uid). An empty
id list returns `true` before the recursive predicate is even built. -/
def hasAncestorFuel (rs : List (Nat × CnysaResource)) (anc : Constraint) (fuel : Nat)
    (res : CnysaResource) : Bool :=
  match anc with
  | .ids [] => true
  | .pattern p =>
    match fuel with
    | 0 => false
    | fuel' + 1 =>
      p res.type || res.parents.any fun par => hasAncestorFuel rs (.pattern p) fuel' (getRes rs par)
  | .ids (a :: l) =>
    match fuel with
    | 0 => false
    | fuel' + 1 =>
      (a :: l).contains res.uid ||
        res.parents.any fun par => hasAncestorFuel rs (.ids (a :: l)) fuel' (getRes rs par)

/-- Model of `Cnysa#hasAncestor` at the fuel bound sufficient on well-formed registries. -/
def hasAncestor (rs : List (Nat × CnysaResource)) (anc : Constraint)
    (res : CnysaResource) : Bool :=
  hasAncestorFuel rs anc res.uid res

/-- Well-formedness of the registry, maintained by the recorder: every entry is
stored under its own uid, uids are at least 1, and `parents` reference strictly
earlier, registered ids. -/
def WFReg (rs : List (Nat × CnysaResource)) : Prop :=
  ∀ p ∈ rs, p.2.uid = p.1 ∧ 1 ≤ p.1 ∧
    ∀ q ∈ p.2.parents, q < p.1 ∧ (lookupRes rs q).isSome

/-- One wrapped segment of a track (`StringData`): its characters, its length
counter (styled characters count as one), and the dirty flag. -/
structure StringData where
  str : List Char
  length : Nat
  dirty : Bool
deriving DecidableEq, Repr

/-- The `StringRowsBuilder`. `maxLength = none` encodes the JS value
`Infinity` (which arises as `config.width - (-Infinity)` when every resource is
filtered out), on which the wrap test `currentLength === maxLength` is never
true. -/
structure StringRowsBuilder where
  maxLength : Option Int
  data : List StringData
  currentLength : Nat
deriving Repr

/-- Replace the last element of a list in place (`data[data.length - 1]`). -/
def modifyLast {α : Type} (f : α → α) : List α → List α
  | [] => []
  | [x] => [f x]
  | x :: y :: rest => x :: modifyLast f (y :: rest)

/-- Model of `StringRowsBuilder#appendChar`. The `style` argument is the `chalk` color;
in the color-less model it does not alter the stored characters. A character is
clean exactly when it is `' '` or `'|'`. -/
def appendChar (b : StringRowsBuilder) (char : Char) (_style : Option Color) :
    StringRowsBuilder :=
  let data :=
    if b.currentLength = 0 then b.data ++ [{ str := [], length := 0, dirty := false }]
    else b.data
  let data := modifyLast
    (fun top =>
      { str := top.str ++ [char], length := top.length + 1,
        dirty := top.dirty || !(char = ' ' || char = '|') }) data
  let newLen := b.currentLength + 1
  { b with data := data,
           currentLength :=
             match b.maxLength with
             | some m => if (newLen : Int) = m then 0 else newLen
             | none => newLen }

/-- Feed a list of (character, style) pairs through the builder. -/
def appendChars (b : StringRowsBuilder) (cs : List (Char × Option Color)) :
    StringRowsBuilder :=
  cs.foldl (fun b c => appendChar b c.1 c.2) b

/-- The `maybeVertical` closure of `createAsyncSnapshot`, reduced to the glyph
it appends: for an `init`/`internal` event on resource `euid` and another track
`k`, with a non-empty renderer stack, the connector determined by the stack's
top element (`none` when the rule falls through to the step-3 fallback). -/
def maybeVerticalChar (euid : Int) (k : Nat) (stack : List Nat) : Option Char :=
  match jsTop stack with
  | none => none
  | some t =>
    if euid > (k : Int) then
      if t < k then some '|' else if t = k then some '.' else none
    else if euid < (k : Int) then
      if t > k then some '|' else if t = k then some '.' else none
    else none

/-- The step-3 fallback glyph for a track `k` that is not the event's own
resource and received no connector: `.` when `k` is anywhere on the renderer
stack, `-` when alive, blank otherwise. -/
def step3Char (stack : List Nat) (alive : Bool) (k : Nat) : Char × Option Color :=
  if stack.contains k then ('.', some .blue)
  else if alive then ('-', some .gray)
  else (' ', none)

/-- The full glyph decision of `createAsyncSnapshot`'s `else` branch (track
`k` distinct from the event's resource): `maybeVertical` is attempted only for
`internal` (cyan) and `init` (green) events, then the step-3 fallback. -/
def otherTrackChar (euid : Int) (ty : EventType) (k : Nat) (stack : List Nat)
    (alive : Bool) : Char × Option Color :=
  match ty, maybeVerticalChar euid k stack with
  | .internal, some c => (c, some .cyan)
  | .init, some c => (c, some .green)
  | _, _ => step3Char stack alive k

/-- The glyph appended on the event's own track (`event.uid === k`), together
with the stack/liveness updates of that branch. -/
def ownTrackChar (ty : EventType) : Char × Option Color :=
  match ty with
  | .init => ('*', some .green)
  | .before => ('{', some .blue)
  | .after => ('}', some .blue)
  | .destroy => ('*', some .red)
  | .promiseResolve => ('*', some .gray)
  | .internal => ('*', some .cyan)
  | .pad => ('?', some .gray)

/-- The default `ignoreTypes` pattern `/ /`: matches types containing a space. -/
def defaultIgnoreTypes : Pattern := fun ty => ty.contains ' '

/-- Model of `Cnysa.SNAPSHOT_DEFAULTS.width` (`process.stdout.columns || 80`, modeled as
the fallback 80). -/
def defaultWidth : Nat := 80

/-- Model of `Cnysa#canonicalizeSnapshotOptions`: `Object.assign` of the defaults, the
instance's `globalOptions` and the per-call options (later keys win). -/
def canonicalizeSnapshotOptions (s : CnysaState) (o : CnysaOptionsP) : SnapshotConfig :=
  { width := ((o.width).orElse fun _ => s.globalOptions.width).getD defaultWidth,
    ignoreTypes := ((o.ignoreTypes).orElse fun _ => s.globalOptions.ignoreTypes).getD
      defaultIgnoreTypes,
    roots := ((o.roots).orElse fun _ => s.globalOptions.roots).getD [],
    padding := ((o.padding).orElse fun _ => s.globalOptions.padding).getD 1,
    format := ((o.format).orElse fun _ => s.globalOptions.format).getD "default".data }

/-- Model of `Cnysa#canonicalizeStackTraceOptions`. -/
def canonicalizeStackTraceOptions (s : CnysaState) (o : CnysaOptionsP) : StackTraceConfig :=
  { ignoreTypes := ((o.ignoreTypes).orElse fun _ => s.globalOptions.ignoreTypes).getD
      defaultIgnoreTypes }

/-- The `ignoredResources` set of `createAsyncSnapshot`: keys whose type
matches `ignoreTypes` or which fail the `roots` ancestry constraint. -/
def ignoredSet (s : CnysaState) (config : SnapshotConfig) : List Nat :=
  (resKeys s.resources).filter fun k =>
    config.ignoreTypes (getRes s.resources k).type ||
      !hasAncestor s.resources (.ids config.roots) (getRes s.resources k)

/-- Membership of an event uid in the ignored set (`ignoredResources.has`). -/
def ignoredHas (ignored : List Nat) (uid : Int) : Bool :=
  ignored.any fun k => (k : Int) = uid

/-- Decimal rendering of a uid (`uid.toString()`). -/
def natChars (n : Nat) : List Char := (Nat.repr n).data

/-- The row-header contribution of one resource:
`tidLength + uidLength + typeLength`. -/
def rowHeaderTerm (r : CnysaResource) : Int :=
  let tidLength : Int := if r.tid.isSome then ((natChars r.uid).length + 3 : Nat) else 0
  let uidLength : Int := ((natChars r.uid).length + 1 : Nat)
  let typeLength : Int := (r.type.length + 1 : Nat)
  tidLength + uidLength + typeLength

/-- Model of `rowHeaderLength`: the max over non-ignored resources, starting from the JS
`-Infinity` (encoded `none`, reached when every resource is ignored). -/
def rowHeaderLengthOpt (s : CnysaState) (ignored : List Nat) : Option Int :=
  (resKeys s.resources).foldl
    (fun acc k =>
      if ignored.contains k then acc
      else
        let t := rowHeaderTerm (getRes s.resources k)
        match acc with
        | none => some t
        | some a => some (max a t))
    none

/-- The `'pad'` pseudo-event (`{ uid: -1, timestamp: 0, type: 'pad' }`). -/
def padEvent : CnysaEvent := { timestamp := 0, uid := -1, type := .pad }

/-- Model of `paddedEvents`: every non-ignored event followed by `padding` pads. -/
def paddedEvents (events : List CnysaEvent) (ignored : List Nat) (padding : Nat) :
    List CnysaEvent :=
  events.flatMap fun ev =>
    if ignoredHas ignored ev.uid then []
    else ev :: List.replicate padding padEvent

/-- The per-track mutable record `eventStrings[k]`. -/
structure TrackState where
  alive : Bool
  str : StringRowsBuilder

/-- The renderer's shared mutable state: the scope stack local to
`createAsyncSnapshot` and the `eventStrings` map. -/
structure RenderAcc where
  stack : List Nat
  tracks : List (Nat × TrackState)

/-- Pre-initialize `eventStrings` for every key. In the source each entry is
created lazily on the first processed event, which is equivalent because every
event's `forEach` visits the full key list; when no event is processed at all
(every event filtered out while the registry is non-empty) the source throws a
`TypeError` reading `eventStrings[k].str` at the separator computation before
any of these tracks would be consulted — `createAsyncSnapshot` models that
throw explicitly, so these pre-initialized tracks are only read on inputs
where the lazy and eager initializations coincide. -/
def initTracks (keys : List Nat) (adjWidth : Option Int) : List (Nat × TrackState) :=
  keys.map fun k =>
    (k, { alive := false, str := { maxLength := adjWidth, data := [], currentLength := 0 } })

/-- Read a track's record (always present after `initTracks`). -/
def trackOf (tracks : List (Nat × TrackState)) (k : Nat) : TrackState :=
  match tracks.find? (fun p => p.1 = k) with
  | some p => p.2
  | none => { alive := false, str := { maxLength := some 0, data := [], currentLength := 0 } }

/-- Write a track's record back. -/
def setTrack (tracks : List (Nat × TrackState)) (k : Nat) (ts : TrackState) :
    List (Nat × TrackState) :=
  tracks.map fun p => if p.1 = k then (k, ts) else p

/-- The `event.uid === k` branch: own glyph plus liveness and stack updates. -/
def trackStepOwn (ts : TrackState) (stack : List Nat) (ev : CnysaEvent) (k : Nat) :
    TrackState × List Nat :=
  match ev.type with
  | .init => ({ ts with str := appendChar ts.str '*' (some .green), alive := true }, stack)
  | .before => ({ ts with str := appendChar ts.str '{' (some .blue) }, stack ++ [k])
  | .after => ({ ts with str := appendChar ts.str '}' (some .blue) }, jsPop stack)
  | .destroy => ({ ts with str := appendChar ts.str '*' (some .red), alive := false }, stack)
  | .promiseResolve =>
    ({ ts with str := appendChar ts.str '*' (some .gray), alive := false }, stack)
  | .internal => ({ ts with str := appendChar ts.str '*' (some .cyan) }, stack)
  | .pad => ({ ts with str := appendChar ts.str '?' (some .gray) }, stack)

/-- One iteration of the glyph loop's `forEach` body, for track `k`. -/
def processKey (ev : CnysaEvent) (acc : RenderAcc) (k : Nat) : RenderAcc :=
  if ev.uid = (k : Int) then
    let r := trackStepOwn (trackOf acc.tracks k) acc.stack ev k
    { stack := r.2, tracks := setTrack acc.tracks k r.1 }
  else
    let c := otherTrackChar ev.uid ev.type k acc.stack (trackOf acc.tracks k).alive
    { acc with
        tracks := setTrack acc.tracks k
          { trackOf acc.tracks k with
              str := appendChar (trackOf acc.tracks k).str c.1 c.2 } }

/-- One event of the glyph loop: the `forEach` over all keys, sequential
because the shared `stack` mutates mid-iteration (keys processed after the
event's own track already see its push/pop). -/
def processEvent (keys : List Nat) (acc : RenderAcc) (ev : CnysaEvent) : RenderAcc :=
  keys.foldl (processKey ev) acc

/-- The whole glyph loop of `createAsyncSnapshot`, as a fold over the padded
event list. -/
def renderTracks (s : CnysaState) (config : SnapshotConfig) : RenderAcc :=
  let ignored := ignoredSet s config
  let rhl := rowHeaderLengthOpt s ignored
  let adjWidth := rhl.map fun r => (config.width : Int) - r
  (paddedEvents s.events ignored config.padding).foldl
    (processEvent (resKeys s.resources))
    { stack := [], tracks := initTracks (resKeys s.resources) adjWidth }

/-- The longest wrapped-segment length of one track
(`.map(l => l.length).reduce(max, 0)`). -/
def maxSegLen (ts : TrackState) : Nat :=
  ts.str.data.foldl (fun a d => max a d.length) 0

/-- The separator length: `reduce(max, 0)` over
`rowHeaderLength + longest segment` for all keys; when `rowHeaderLength` is
`-Infinity` every term is `-Infinity` and the initial 0 survives. -/
def separatorLen (keys : List Nat) (tracks : List (Nat × TrackState)) (rhl : Option Int) :
    Nat :=
  match rhl with
  | none => 0
  | some r => ((keys.map fun k => r + (maxSegLen (trackOf tracks k) : Int)).foldl max 0).toNat

/-- Model of `leftPad(str, len)`: prepend spaces up to `len`; for `len = -Infinity`
(encoded `none`) the padding loop never runs. -/
def leftPadTo (str : List Char) (len : Option Int) : List Char :=
  match len with
  | none => str
  | some L => List.replicate (L - (str.length : Int)).toNat ' ' ++ str

/-- The row-header label of one track:
`` `${uid} (${tid}) ${type} ` `` or `` `${uid} ${type} ` ``. -/
def trackLabel (r : CnysaResource) : List Char :=
  match r.tid with
  | some t => natChars r.uid ++ " (".data ++ natChars t ++ ") ".data ++ r.type ++ [' ']
  | none => natChars r.uid ++ [' '] ++ r.type ++ [' ']

/-- Model of `dataLines`: per track, each wrapped segment becomes the empty line when
non-dirty, else the left-padded label followed by the segment. -/
def dataLinesOf (s : CnysaState) (tracks : List (Nat × TrackState)) (rhl : Option Int) :
    List (List (List Char)) :=
  (resKeys s.resources).map fun k =>
    (trackOf tracks k).str.data.map fun rhs =>
      if !rhs.dirty then []
      else leftPadTo (trackLabel (getRes s.resources k)) rhl ++ rhs.str

/-- The `interleave` helper: flatten in column-major order with an optional
separator between column groups, skipping absent entries. -/
def interleave {α : Type} (input : List (List α)) (sep : Option α) : List α :=
  let maxLength := input.foldl (fun acc next => max next.length acc) 0
  (List.range maxLength).flatMap fun i =>
    (if 0 < i then sep.toList else []) ++ input.filterMap fun row => row.get? i

/-- The lines of the final snapshot page: separator, the column-major
interleaving of all tracks' lines with empty lines dropped, separator. -/
def snapshotLines (s : CnysaState) (config : SnapshotConfig) : List (List Char) :=
  let ignored := ignoredSet s config
  let rhl := rowHeaderLengthOpt s ignored
  let acc := renderTracks s config
  let sep := List.replicate (separatorLen (resKeys s.resources) acc.tracks rhl) ':'
  [sep] ++
    (interleave (dataLinesOf s acc.tracks rhl) (some sep)).filter (fun line => 0 < line.length)
    ++ [sep]

/-- Join page lines with newlines. -/
def joinLines (ls : List (List Char)) : List Char := List.intercalate ['\n'] ls

/-- Model of `Cnysa#createAsyncSnapshot`. Returns the method's outcome and the
state it leaves behind (it appends the synthetic root `after` and sets
`globalContinuationEnded` when the flag was still false, before any rendering).
The outcome is `none` exactly when the source throws: with every event
filtered out and a non-empty registry, `eventStrings` stays empty (the lazy
per-key initialization only runs while processing events) and the separator
computation's read of `eventStrings[k].str` raises a `TypeError` after the
flag/log mutation, so no string is returned. `ansiToSvg` is the external
`'svg'` conversion collaborator, a parameter of the model. -/
def createAsyncSnapshot (s : CnysaState) (opts : CnysaOptionsP) (now : Nat)
    (ansiToSvg : List Char → List Char) : Option (List Char) × CnysaState :=
  let config := canonicalizeSnapshotOptions s opts
  let s' :=
    if s.globalContinuationEnded then s
    else
      { s with globalContinuationEnded := true,
               events := s.events ++ [{ timestamp := now, uid := 1, type := .after }] }
  let result : Option (List Char) :=
    if (paddedEvents s'.events (ignoredSet s' config) config.padding).isEmpty &&
        !(resKeys s'.resources).isEmpty then
      none
    else
      let output := joinLines (snapshotLines s' config)
      let format :=
        match opts.format with
        | some f => if f = [] then config.format else f
        | none => config.format
      some (if format = "svg".data then ansiToSvg output else output)
  (result, s')

/-- Whitespace as it occurs in assembled pages (space and newline); the model
of the character class trimmed by `String.prototype.trim`. -/
def isWS (c : Char) : Bool := c = ' ' || c = '\n'

/-- Remove leading whitespace. -/
def ltrim (s : List Char) : List Char := s.dropWhile isWS

/-- Remove trailing whitespace. -/
def rtrim (s : List Char) : List Char := (s.reverse.dropWhile isWS).reverse

/-- Model of `String.prototype.trim`: remove whitespace from both ends. -/
def jsTrim (s : List Char) : List Char := ltrim (rtrim s)

/-- The longest line of one cell
(`cell.reduce((acc, line) => Math.max(acc, stringLength(line)), 0)`; in the
color-less model `stringLength` is the plain length). -/
def cellWidth (cell : List (List Char)) : Nat :=
  cell.foldl (fun acc line => max acc line.length) 0

/-- Model of `rowHeights[y]`: the tallest cell of a row. -/
def rowHeight (row : List (List (List Char))) : Nat :=
  row.foldl (fun acc cell => max acc cell.length) 0

/-- Model of `columnWidths[x]`: the maximum cell width at column `x` across the rows
that have such a column (the imperative loop grows the array with 0 and maxes
in each row's cells). -/
def columnWidths (args : List (List (List (List Char)))) (x : Nat) : Nat :=
  (args.filterMap fun row => row.get? x).foldl (fun acc cell => max acc (cellWidth cell)) 0

/-- The two kinds of steps of `assemble`'s output loop: emitting one grid line,
and the end-of-row separator. -/
inductive AsmOp where
  | line (s : List Char)
  | rowEnd
deriving DecidableEq, Repr

/-- One step of `assemble`'s imperative accumulation:
`result = (result + chunk).trim() + '\n'` per line and
`result = result.trim() + '\n\n'` per row. -/
def codeStep (r : List Char) (op : AsmOp) : List Char :=
  match op with
  | .line c => jsTrim (r ++ c) ++ ['\n']
  | .rowEnd => jsTrim r ++ ['\n', '\n']

/-- The characters appended for grid line `l` of one row: per cell, the line
(`args[y][x][l] || ''`), padding to the column width, and one space. -/
def codeChunk (widths : Nat → Nat) (row : List (List (List Char))) (l : Nat) : List Char :=
  row.enum.flatMap fun p =>
    let line := (p.2.get? l).getD []
    line ++ List.replicate (widths p.1 - line.length) ' ' ++ [' ']

/-- The sequence of steps `assemble` performs for a given argument. -/
def asmOps (args : List (List (List (List Char)))) : List AsmOp :=
  args.flatMap fun row =>
    ((List.range (rowHeight row)).map fun l => AsmOp.line (codeChunk (columnWidths args) row l))
      ++ [AsmOp.rowEnd]

/-- Model of `assemble` from `src/assemble.ts`: run the accumulation and trim the page. -/
def assemble (args : List (List (List (List Char)))) : List Char :=
  jsTrim ((asmOps args).foldl codeStep [])

/-- The `prepare` formatter of `createAsyncStackTrace` with the default lead:
`` `> ${name || '(anonymous)'} (${file}:${line})` ``. -/
def prepareFrame (c : Frame) : List Char :=
  let name :=
    match c.functionName with
    | some n => if n = [] then "(anonymous)".data else n
    | none => "(anonymous)".data
  "> ".data ++ name ++ " (".data ++ c.fileName ++ [':'] ++ natChars c.lineNumber ++ [')']

/-- The text block for one ancestry path: a header joining `*`, the path's ids
and the tip's type, followed by the tip's captured stack frames. -/
def pathCell (s : CnysaState) (parents : List Nat) : List (List Char) :=
  let t := (jsTop parents).getD 0
  (List.intercalate "-".data
      ("*".data :: ((jsPop parents).map fun parent => natChars (getRes s.resources parent).uid)
        ++ [natChars (getRes s.resources t).uid])
    ++ [' '] ++ (getRes s.resources t).type)
  :: (getRes s.resources t).stack.map prepareFrame

/-- The ancestry-walk loop of `createAsyncStackTrace`, with fuel standing in
for the JS `while` (which terminates because paths extend by strictly earlier
ids on well-formed registries): filter out root tips and ignored types, emit a
grid row of path cells, then extend every path by its tip's parents. -/
def stackTraceLoop (s : CnysaState) (config : StackTraceConfig) :
    Nat → List (List Nat) → List (List (List (List Char))) → List (List (List (List Char)))
  | 0, _, acc => acc
  | fuel + 1, queue, acc =>
    if queue.isEmpty then acc
    else
      let queue := queue.filter fun parents =>
        (jsTop parents).getD 0 ≠ 1 &&
          !config.ignoreTypes (getRes s.resources ((jsTop parents).getD 0)).type
      let acc := acc ++ [queue.map (pathCell s)]
      let queue := queue.foldl
        (fun acc2 parents =>
          if (getRes s.resources ((jsTop parents).getD 0)).parents = [] then acc2
          else
            acc2 ++
              ((getRes s.resources ((jsTop parents).getD 0)).parents.map
                fun p => parents ++ [p]).reverse)
        []
      stackTraceLoop s config fuel queue acc

/-- The largest registered uid. -/
def maxKey (s : CnysaState) : Nat := (resKeys s.resources).foldl max 0

/-- Model of `Cnysa#createAsyncStackTrace`. `capturedFrames` is the raw
`createStackTrace()` call made at the head of the method (the method slices off
2 frames). The method only reads the instance, so the state comes back as is. -/
def createAsyncStackTrace (s : CnysaState) (opts : CnysaOptionsP)
    (capturedFrames : List Frame) : List Char × CnysaState :=
  let config := canonicalizeStackTraceOptions s opts
  let preassemble := [["*".data :: (capturedFrames.drop 2).map prepareFrame]]
  let queue0 := (s.currentScopes.map fun x => [x.id]).reverse
  (assemble (stackTraceLoop s config (maxKey s + 2) queue0 preassemble), s)

/-- The arguments the host runtime passes to one `init` notification. -/
structure InitArgs where
  now : Nat
  uid : Nat
  ty : List Char
  triggerId : Nat
  eid : Nat
  rawStack : List Frame
  isMark : Bool
  isCustom : Bool

/-- Apply one `init` notification. -/
def applyInit (s : CnysaState) (a : InitArgs) : CnysaState :=
  hookInit s a.now a.uid a.ty a.triggerId a.eid a.rawStack a.isMark a.isCustom

/-- Every state-affecting entry point of a `Cnysa` instance, for reasoning
about whole runs. -/
inductive Op where
  | init (a : InitArgs)
  | before (now uid : Nat) (rawStack : List Frame)
  | after (now uid : Nat)
  | destroy (now uid : Nat)
  | promiseResolve (now uid : Nat)
  | markCall (now uid triggerId eid : Nat) (tag : List Char) (rawStack : List Frame)
  | ignoreNextCall (n : Option Nat)
  | snapshot (opts : CnysaOptionsP) (now : Nat) (conv : List Char → List Char)
  | stackTrace (opts : CnysaOptionsP) (frames : List Frame)

/-- The state transition of one entry point. -/
def applyOp (s : CnysaState) (op : Op) : CnysaState :=
  match op with
  | .init a => applyInit s a
  | .before now uid raw => hookBefore s now uid raw
  | .after now uid => hookAfter s now uid
  | .destroy now uid => hookDestroy s now uid
  | .promiseResolve now uid => hookPromiseResolve s now uid
  | .markCall now uid trig eid tag raw => mark s now uid trig eid tag raw
  | .ignoreNextCall n => ignoreNext s n
  | .snapshot opts now conv => (createAsyncSnapshot s opts now conv).2
  | .stackTrace opts frames => (createAsyncStackTrace s opts frames).2

/-- Run a sequence of entry points. -/
def runOps (s : CnysaState) (ops : List Op) : CnysaState := ops.foldl applyOp s

/-- The host guarantee that creations never reuse the reserved root id 1
(`async_hooks` ids are fresh and larger). -/
def opAvoidsRoot : Op → Bool
  | .init a => a.uid ≠ 1
  | .markCall _ uid _ _ _ _ => uid ≠ 1
  | _ => true

/-- The number of synthetic root `after` events in a log. -/
def rootAfterCount (events : List CnysaEvent) : Nat :=
  events.countP fun ev => decide (ev.uid = 1 ∧ ev.type = .after)

/-- A character the dirty rule of `appendChar` treats as clean. -/
def cleanChar (c : Char) : Bool := c = ' ' || c = '|'

/-- A grid line as the C8 claim words it: cells padded to their column's
width, joined with one separating space (no per-cell trailing space, no
trimming). This definition follows the claim, for comparison with the
source-derived `assemble`. -/
def specLine (widths : Nat → Nat) (row : List (List (List Char))) (l : Nat) : List Char :=
  List.intercalate [' ']
    (row.enum.map fun p =>
      let line := (p.2.get? l).getD []
      line ++ List.replicate (widths p.1 - line.length) ' ')

/-- The page, as rows of lines, per the C8 claim: every row padded to its row's
line count, every cell to its column's width. -/
def claimRows (args : List (List (List (List Char)))) : List (List (List Char)) :=
  args.map fun row => (List.range (rowHeight row)).map (specLine (columnWidths args) row)

/-- The assembled page exactly as the C8 claim words it: rows joined
top-to-bottom with one blank line between row-groups, lines joined with
newlines. Claim-side definition, to be compared with `assemble`. -/
def assembleSpec (args : List (List (List (List Char)))) : List Char :=
  List.intercalate ['\n', '\n'] ((claimRows args).map (List.intercalate ['\n']))

/-- The declarative accumulator for `assemble`'s trimming: `s` is the trimmed
page so far, `t` the pending whitespace tail (`""`, `"\n"` or `"\n\n"`). -/
structure AsmAcc where
  s : List Char
  t : List Char

/-- The declarative counterpart of `codeStep`: a whitespace-only line vanishes
(resetting the pending tail to a single newline), a substantive line is
right-trimmed and attached after the pending tail, a row end makes the pending
tail a blank line. -/
def asmStep (acc : AsmAcc) (op : AsmOp) : AsmAcc :=
  match op with
  | .rowEnd => { s := acc.s, t := ['\n', '\n'] }
  | .line c =>
    if rtrim c = [] then { s := acc.s, t := ['\n'] }
    else if acc.s = [] then { s := jsTrim c, t := ['\n'] }
    else { s := acc.s ++ acc.t ++ rtrim c, t := ['\n'] }

/-- The cleanup `assemble` applies on top of the claim's padded page: fold the
page's lines and row boundaries through the trimming accumulator. -/
def cleanupRows (rows : List (List (List Char))) : List Char :=
  ((rows.flatMap fun r => r.map AsmOp.line ++ [AsmOp.rowEnd]).foldl asmStep
    { s := [], t := [] }).s

/-- The resource record an unignored `init` notification stores, as a function
of the scope stack at the call and the notification's arguments. -/
def recordedResource (scopes : List Scope) (a : InitArgs) : CnysaResource :=
  { tid := if a.isMark then none else if a.triggerId ≠ a.eid then some a.triggerId else none,
    uid := a.uid, type := a.ty, internal := a.isMark, custom := a.isCustom,
    parents := scopes.map (·.id), stack := a.rawStack.drop 4 }

/-- The resource record `mark(tag)` stores: internal, custom, type
`"(" + tag + ")"`, parents from the current scope stack. -/
def markResource (scopes : List Scope) (uid : Nat) (tag : List Char) (raw : List Frame) :
    CnysaResource :=
  { tid := none, uid := uid, type := '(' :: tag ++ [')'], internal := true, custom := true,
    parents := scopes.map (·.id), stack := raw.drop 4 }

/-- The run invariant behind C6: the reserved root entry stays internal, and
the number of root `after` events in the log tracks the
`globalContinuationEnded` flag exactly. -/
def RootInv (s : CnysaState) : Prop :=
  (∃ r, lookupRes s.resources 1 = some r ∧ r.internal = true) ∧
    rootAfterCount s.events = (if s.globalContinuationEnded then 1 else 0)

/-- A non-empty string with no leading or trailing whitespace. -/
def TrimmedNE (s : List Char) : Prop :=
  s ≠ [] ∧ ltrim s = s ∧ rtrim s = s

/-- The simulation invariant tying `assemble`'s accumulated string to the
declarative accumulator: the string is the trimmed page followed by the
pending whitespace tail. -/
def AsmInv (r : List Char) (acc : AsmAcc) : Prop :=
  r = acc.s ++ acc.t ∧ (acc.s = [] ∨ TrimmedNE acc.s) ∧ (∀ c ∈ acc.t, isWS c = true)

/-- Relates `assemble`'s per-cell-trailing-space lines to the claim's
space-separated lines: equal up to trailing whitespace. -/
def OpRel : AsmOp → AsmOp → Prop
  | .line c1, .line c2 => rtrim c1 = rtrim c2
  | .rowEnd, .rowEnd => True
  | _, _ => False

/-- The builder invariant behind C3: every segment's dirty flag records
whether some character of the segment falls outside the clean set
(space and `|`). -/
def BuilderInv (b : StringRowsBuilder) : Prop :=
  ∀ sd ∈ b.data, sd.dirty = sd.str.any fun c => !cleanChar c

/-- All tracks' builders satisfy `BuilderInv`. -/
def TracksInv (tracks : List (Nat × TrackState)) : Prop :=
  ∀ p ∈ tracks, BuilderInv p.2.str

/-- A two-entry sample registry (root plus one resource parented on it), used
to instantiate theorems on concrete inputs. -/
def sampleRoot : CnysaResource :=
  { tid := none, uid := 1, type := "(initial)".data, internal := true, custom := false,
    parents := [], stack := [] }

/-- The sample non-root resource of `sampleRegistry`. -/
def sampleChild : CnysaResource :=
  { tid := none, uid := 2, type := "T".data, internal := false, custom := false,
    parents := [1], stack := [] }

/-- The sample registry itself. -/
def sampleRegistry : List (Nat × CnysaResource) := [(1, sampleRoot), (2, sampleChild)]

/-- A concrete run in which a type-filtered resource 2 exists and resource 3 is
created while the root scope is open: resource 2's track receives only a `|`
connector and spaces. -/
def hideScenarioState : CnysaState :=
  runOps (initialState 0 { ignoreTypes := some fun ty => ty == "HIDE".data })
    [Op.init { now := 1, uid := 2, ty := "HIDE".data, triggerId := 1, eid := 1,
               rawStack := [], isMark := false, isCustom := false },
     Op.init { now := 2, uid := 3, ty := "T".data, triggerId := 1, eid := 1,
               rawStack := [], isMark := false, isCustom := false }]

/-- The canonicalized snapshot options of the `hideScenarioState` instance. -/
def hideScenarioConfig : SnapshotConfig :=
  canonicalizeSnapshotOptions hideScenarioState {}

theorem lookupRes_insertRes_self (rs : List (Nat × CnysaResource)) (uid : Nat)
    (r : CnysaResource) : lookupRes (insertRes rs uid r) uid = some r := by
  induction rs with
  | nil => simp [insertRes, lookupRes]
  | cons p rest ih =>
    obtain ⟨k, v⟩ := p
    by_cases h1 : uid < k
    · simp [insertRes, lookupRes, h1]
    · by_cases h2 : uid = k
      · simp [insertRes, lookupRes, h1, h2]
      · simp [insertRes, lookupRes, h1, h2, ih]

theorem lookupRes_insertRes_ne (rs : List (Nat × CnysaResource)) (uid k : Nat)
    (r : CnysaResource) (h : k ≠ uid) :
    lookupRes (insertRes rs uid r) k = lookupRes rs k := by
  induction rs with
  | nil => simp [insertRes, lookupRes, h]
  | cons p rest ih =>
    obtain ⟨k0, v⟩ := p
    by_cases h1 : uid < k0
    · simp [insertRes, lookupRes, h1, h]
    · by_cases h2 : uid = k0
      · subst h2
        simp [insertRes, lookupRes, h1, h]
      · by_cases h3 : k = k0
        · simp [insertRes, lookupRes, h1, h2, h3]
        · simp [insertRes, lookupRes, h1, h2, h3, ih]

/-- The outcome of one unignored `init` notification. -/
theorem hookInit_record (s : CnysaState) (a : InitArgs) (h : s.ignoreResources = 0) :
    applyInit s a =
      { s with resources := insertRes s.resources a.uid (recordedResource s.currentScopes a),
               events := s.events ++
                 [{ timestamp := a.now, uid := a.uid,
                    type := if a.isMark then .internal else .init }] } := by
  unfold applyInit hookInit recordedResource
  by_cases hm : a.isMark
  · simp [h, hm]
  · by_cases ht : a.triggerId = a.eid
    · simp [h, hm, ht]
    · simp [h, hm, ht]

/-- C9: an `onDestroy` for an id unknown to the registry appends nothing,
while `onSettle` (`promiseResolve`) appends its event unconditionally, whatever
the registry holds. -/
theorem c9_destroy_noop_promiseResolve_unconditional :
    ∀ (s : CnysaState) (now uid : Nat),
      (lookupRes s.resources uid = none → hookDestroy s now uid = s) ∧
      hookPromiseResolve s now uid =
        { s with events := s.events ++
            [{ timestamp := now, uid := uid, type := .promiseResolve }] } := by
  intro s now uid
  constructor
  · intro h
    unfold hookDestroy
    rw [h]
  · rfl

theorem c9_witness :
    lookupRes (initialState 0 {}).resources 5 = none ∧
      (hookDestroy (initialState 0 {}) 3 5 = initialState 0 {} ∧
        hookPromiseResolve (initialState 0 {}) 3 5 =
          { initialState 0 {} with events := (initialState 0 {}).events ++
              [{ timestamp := 3, uid := 5, type := .promiseResolve }] }) :=
  ⟨by decide,
    (c9_destroy_noop_promiseResolve_unconditional (initialState 0 {}) 3 5).1 (by decide),
    (c9_destroy_noop_promiseResolve_unconditional (initialState 0 {}) 3 5).2⟩

/-- A run of `init` notifications no longer than the ignore counter only
decrements the counter. -/
theorem foldInits_ignored :
    ∀ (ds : List InitArgs) (s : CnysaState), ds.length ≤ s.ignoreResources →
      ds.foldl applyInit s = { s with ignoreResources := s.ignoreResources - ds.length } := by
  intro ds
  induction ds with
  | nil => intro s _; simp
  | cons d rest ih =>
    intro s h
    have hz : s.ignoreResources ≠ 0 := by
      simp at h
      omega
    have hstep : applyInit s d = { s with ignoreResources := s.ignoreResources - 1 } := by
      unfold applyInit hookInit
      simp [hz]
    rw [List.foldl_cons, hstep, ih]
    · simp
      omega
    · simp at h ⊢
      omega

/-- C10: `ignoreNext(n)` makes the next `n` creations vanish entirely (registry,
log and scope state untouched, one counter decrement each), the `(n+1)`-th
creation is recorded normally, and `ignoreNext()` equals `ignoreNext(1)`. -/
theorem c10_ignoreNext :
    ∀ (s : CnysaState) (ds : List InitArgs) (n : Nat) (a : InitArgs),
      s.ignoreResources = 0 → n = ds.length → 1 ≤ n →
      ds.foldl applyInit (ignoreNext s (some n)) = { s with ignoreResources := 0 } ∧
      applyInit (ds.foldl applyInit (ignoreNext s (some n))) a =
        { s with ignoreResources := 0,
                 resources := insertRes s.resources a.uid (recordedResource s.currentScopes a),
                 events := s.events ++
                   [{ timestamp := a.now, uid := a.uid,
                      type := if a.isMark then .internal else .init }] } ∧
      ignoreNext s none = ignoreNext s (some 1) := by
  intro s ds n a h0 hn _h1
  have hfold : ds.foldl applyInit (ignoreNext s (some n)) = { s with ignoreResources := 0 } := by
    rw [foldInits_ignored ds (ignoreNext s (some n)) (by simp [ignoreNext, hn])]
    simp [ignoreNext, hn]
  refine ⟨hfold, ?_, rfl⟩
  rw [hfold, hookInit_record { s with ignoreResources := 0 } a (by simp)]

theorem c10_witness :
    (initialState 0 {}).ignoreResources = 0 ∧ (2 : Nat) = 2 ∧ (1 : Nat) ≤ 2 ∧
      ([{ now := 1, uid := 4, ty := "A".data, triggerId := 1, eid := 1, rawStack := [],
          isMark := false, isCustom := false },
        { now := 2, uid := 5, ty := "B".data, triggerId := 1, eid := 1, rawStack := [],
          isMark := false, isCustom := false }] : List InitArgs).foldl applyInit
          (ignoreNext (initialState 0 {}) (some 2)) =
        { initialState 0 {} with ignoreResources := 0 } := by
  refine ⟨by decide, rfl, by decide, ?_⟩
  exact (c10_ignoreNext (initialState 0 {})
    [{ now := 1, uid := 4, ty := "A".data, triggerId := 1, eid := 1, rawStack := [],
       isMark := false, isCustom := false },
     { now := 2, uid := 5, ty := "B".data, triggerId := 1, eid := 1, rawStack := [],
       isMark := false, isCustom := false }] 2
    { now := 3, uid := 6, ty := "C".data, triggerId := 1, eid := 1, rawStack := [],
      isMark := false, isCustom := false }
    (by decide) rfl (by decide)).1

/-- C4 counterexample: `mark("checkpoint")` on a fresh enabled instance leaves
the log with the `internal` event alone — the destruction notification the
marker emits is dropped by the `destroy` handler (the resource is internal), so
no destruction event follows it. -/
theorem c4_counterexample :
    (mark (initialState 0 {}) 1 7 1 1 "checkpoint".data []).events =
      [{ timestamp := 0, uid := 1, type := .before },
       { timestamp := 1, uid := 7, type := .internal }] ∧
    ((mark (initialState 0 {}) 1 7 1 1 "checkpoint".data []).events.all
      fun ev => ev.type ≠ .destroy) = true := by
  constructor
  · decide
  · decide

/-- C4 amended: `mark(tag)` registers exactly one resource, internal and
custom, typed `"(" + tag + ")"`, with `parents` equal to the Continuation Stack
at the call, and the log gains exactly one `internal` event; the marker's own
destruction notification is dropped by the `destroy` handler because the
resource is internal (and since `internal` never marks the track alive it
renders as a single-point marker). -/
theorem c4_amended :
    ∀ (s : CnysaState) (now uid trig eid : Nat) (tag : List Char) (raw : List Frame),
      s.ignoreResources = 0 →
      mark s now uid trig eid tag raw =
        { s with
            resources := insertRes s.resources uid (markResource s.currentScopes uid tag raw),
            events := s.events ++ [{ timestamp := now, uid := uid, type := .internal }] } := by
  intro s now uid trig eid tag raw h
  unfold mark hookInit
  simp only [h, ne_eq, not_true_eq_false, if_true, if_false, ite_false, ite_true]
  unfold hookDestroy
  rw [lookupRes_insertRes_self]
  simp [markResource]

theorem c4_witness :
    (initialState 0 {}).ignoreResources = 0 ∧
      mark (initialState 0 {}) 1 7 1 1 "cp".data [] =
        { initialState 0 {} with
            resources := insertRes (initialState 0 {}).resources 7
              (markResource (initialState 0 {}).currentScopes 7 "cp".data []),
            events := (initialState 0 {}).events ++
              [{ timestamp := 1, uid := 7, type := .internal }] } :=
  ⟨by decide, c4_amended (initialState 0 {}) 1 7 1 1 "cp".data [] (by decide)⟩

/-- C5 counterexample: with an instance-level `ignoreTypes` matching `"FOO"`, a
creation of type `"FOO"` is still added to the registry, and its later destroy
notification is still appended to the log — type filtering does not happen at
registration time and later events are not dropped from the log. -/
theorem c5_counterexample :
    (lookupRes (hookInit (initialState 0 { ignoreTypes := some fun ty => ty == "FOO".data })
        1 2 "FOO".data 1 1 [] false false).resources 2).isSome = true ∧
    (hookDestroy (hookInit (initialState 0 { ignoreTypes := some fun ty => ty == "FOO".data })
        1 2 "FOO".data 1 1 [] false false) 2 2).events =
      [{ timestamp := 0, uid := 1, type := .before },
       { timestamp := 1, uid := 2, type := .init },
       { timestamp := 2, uid := 2, type := .destroy }] := by
  constructor
  · rfl
  · rfl

/-- C5 amended: no type or ancestry filtering occurs at registration — every
creation processed with a zero ignore counter is stored whatever its type —
and a rendering pass leaves the registry unchanged and only ever appends the
one synthetic root `after` to the log (never removing events of filtered
resources); filtering is recomputed inside each `createAsyncSnapshot` call
from that call's canonicalized options. -/
theorem c5_amended :
    ∀ (s : CnysaState) (a : InitArgs) (opts : CnysaOptionsP) (now : Nat)
      (conv : List Char → List Char),
      s.ignoreResources = 0 →
      (applyInit s a).resources =
        insertRes s.resources a.uid (recordedResource s.currentScopes a) ∧
      lookupRes (applyInit s a).resources a.uid = some (recordedResource s.currentScopes a) ∧
      (createAsyncSnapshot s opts now conv).2.resources = s.resources ∧
      (createAsyncSnapshot s opts now conv).2.events =
        s.events ++
          (if s.globalContinuationEnded then []
           else [{ timestamp := now, uid := 1, type := .after }]) := by
  intro s a opts now conv h
  refine ⟨?_, ?_, ?_, ?_⟩
  · rw [hookInit_record s a h]
  · rw [hookInit_record s a h]
    exact lookupRes_insertRes_self _ _ _
  · unfold createAsyncSnapshot
    cases hf : s.globalContinuationEnded <;> simp [hf]
  · unfold createAsyncSnapshot
    cases hf : s.globalContinuationEnded <;> simp [hf]

theorem c5_witness :
    (initialState 0 {}).ignoreResources = 0 ∧
      (createAsyncSnapshot (initialState 0 {}) {} 4 id).2.resources =
        (initialState 0 {}).resources :=
  ⟨by decide,
    (c5_amended (initialState 0 {})
      { now := 1, uid := 2, ty := "T".data, triggerId := 1, eid := 1, rawStack := [],
        isMark := false, isCustom := false } {} 4 id (by decide)).2.2.1⟩

/-- C1 counterexample: on a fresh instance (whose `globalContinuationEnded`
flag is still false) a `createAsyncSnapshot` call mutates the instance — it
sets the flag and appends a synthetic root `after` event to the log. -/
theorem c1_counterexample :
    (initialState 0 {}).globalContinuationEnded = false ∧
    (createAsyncSnapshot (initialState 0 {}) {} 5 id).2.globalContinuationEnded = true ∧
    (initialState 0 {}).events.length = 1 ∧
    (createAsyncSnapshot (initialState 0 {}) {} 5 id).2.events.length = 2 := by
  refine ⟨rfl, rfl, rfl, rfl⟩

/-- C1 amended: `createAsyncStackTrace` leaves the instance unchanged;
`createAsyncSnapshot` leaves the registry, the scope stack and the ignore
counter unchanged and leaves the whole state unchanged exactly when
`globalContinuationEnded` already holds, otherwise it sets that flag and
appends one synthetic root `after` (this mutation happens even when the call
then throws); and for both operations, two successive calls with the same
options yield the same outcome — for the snapshot, the same page string when
one is returned, and the same `TypeError` (outcome `none`, reached when every
event is filtered out of a non-empty registry) when none is. -/
theorem c1_amended :
    ∀ (s : CnysaState) (opts : CnysaOptionsP) (frames : List Frame) (now now2 : Nat)
      (conv : List Char → List Char),
      (createAsyncStackTrace s opts frames).2 = s ∧
      (createAsyncSnapshot s opts now conv).2 =
        (if s.globalContinuationEnded then s
         else
           { s with globalContinuationEnded := true,
                    events := s.events ++ [{ timestamp := now, uid := 1, type := .after }] }) ∧
      (createAsyncSnapshot (createAsyncSnapshot s opts now conv).2 opts now2 conv).1 =
        (createAsyncSnapshot s opts now conv).1 ∧
      (createAsyncStackTrace (createAsyncStackTrace s opts frames).2 opts frames).1 =
        (createAsyncStackTrace s opts frames).1 := by
  intro s opts frames now now2 conv
  refine ⟨rfl, ?_, ?_, rfl⟩
  · unfold createAsyncSnapshot
    cases hf : s.globalContinuationEnded <;> simp [hf]
  · unfold createAsyncSnapshot
    cases hf : s.globalContinuationEnded <;>
      simp [hf, canonicalizeSnapshotOptions, snapshotLines, ignoredSet, rowHeaderLengthOpt,
        renderTracks, paddedEvents]

/-- Fidelity check for the modeled throw: on a fresh instance, options that
filter out every resource (`roots = [2]` excludes the root, whose `parents`
are empty) make the snapshot call produce no string — the source's
`TypeError` at the `eventStrings[k].str` read — while still mutating the
flag and the log. -/
theorem createAsyncSnapshot_filtered_throws :
    (createAsyncSnapshot (initialState 0 {}) { roots := some [2] } 5 id).1 = none ∧
    (createAsyncSnapshot (initialState 0 {}) { roots := some [2] } 5 id).2.events.length = 2 ∧
    (createAsyncSnapshot (initialState 0 {}) { roots := some [2] } 5
      id).2.globalContinuationEnded = true := by
  refine ⟨rfl, rfl, rfl⟩

/-- C2 confirmed: for an `init`/`internal` event on resource `e` and a distinct
track `k`, with a non-empty renderer stack topped by `t`, the connector glyph
is exactly the claimed table — `|` when `e > k ∧ t < k` or `e < k ∧ t > k`,
`.` when `t = k`, and in the remaining cases no connector is assigned and the
step-3 fallback applies (`.` when `k` is anywhere on the stack, `-` when the
track is alive, blank otherwise). -/
theorem c2_connector_table :
    ∀ (e : Int) (k t : Nat) (stack : List Nat) (alive : Bool) (ty : EventType),
      (ty = .init ∨ ty = .internal) → e ≠ (k : Int) → jsTop stack = some t →
      ((e > (k : Int) ∧ t < k → (otherTrackChar e ty k stack alive).1 = '|') ∧
       (e > (k : Int) ∧ t = k → (otherTrackChar e ty k stack alive).1 = '.') ∧
       (e < (k : Int) ∧ t > k → (otherTrackChar e ty k stack alive).1 = '|') ∧
       (e < (k : Int) ∧ t = k → (otherTrackChar e ty k stack alive).1 = '.') ∧
       ((e > (k : Int) ∧ t > k) ∨ (e < (k : Int) ∧ t < k) →
         otherTrackChar e ty k stack alive = step3Char stack alive k) ∧
       (stack.contains k = true → step3Char stack alive k = ('.', some .blue)) ∧
       (stack.contains k = false → alive = true → step3Char stack alive k = ('-', some .gray)) ∧
       (stack.contains k = false → alive = false → step3Char stack alive k = (' ', none))) := by
  intro e k t stack alive ty hty hne htop
  have hmv : ∀ c : Char,
      (maybeVerticalChar e k stack = some c) →
        (otherTrackChar e ty k stack alive).1 = c := by
    intro c hc
    rcases hty with h | h <;> subst h <;> simp [otherTrackChar, hc]
  have hmvnone : maybeVerticalChar e k stack = none →
      otherTrackChar e ty k stack alive = step3Char stack alive k := by
    intro hc
    rcases hty with h | h <;> subst h <;> simp [otherTrackChar, hc]
  refine ⟨?_, ?_, ?_, ?_, ?_, ?_, ?_, ?_⟩
  · rintro ⟨he, ht⟩
    exact hmv '|' (by simp [maybeVerticalChar, htop, he, ht])
  · rintro ⟨he, ht⟩
    subst ht
    exact hmv '.' (by simp [maybeVerticalChar, htop, he])
  · rintro ⟨he, ht⟩
    have hnt : ¬ t < k := by omega
    have hne2 : ¬ t = k := by omega
    exact hmv '|' (by simp [maybeVerticalChar, htop, he, ht, hnt, hne2, not_lt_of_gt he])
  · rintro ⟨he, ht⟩
    subst ht
    exact hmv '.' (by simp [maybeVerticalChar, htop, he, not_lt_of_gt he])
  · rintro (⟨he, ht⟩ | ⟨he, ht⟩)
    · refine hmvnone ?_
      have h1 : ¬ t < k := by omega
      have h2 : ¬ t = k := by omega
      simp [maybeVerticalChar, htop, he, h1, h2]
    · refine hmvnone ?_
      have h1 : ¬ t > k := by omega
      have h2 : ¬ t = k := by omega
      simp [maybeVerticalChar, htop, he, h1, h2, not_lt_of_gt he]
  · intro hc
    have hm : k ∈ stack := by simpa using hc
    simp [step3Char, hm]
  · intro hc ha
    have hm : k ∉ stack := by simpa using hc
    simp [step3Char, hm, ha]
  · intro hc ha
    have hm : k ∉ stack := by simpa using hc
    simp [step3Char, hm, ha]

theorem lookupRes_mem (rs : List (Nat × CnysaResource)) (k : Nat) (r : CnysaResource)
    (h : lookupRes rs k = some r) : (k, r) ∈ rs := by
  induction rs with
  | nil => simp [lookupRes] at h
  | cons p rest ih =>
    obtain ⟨k0, v⟩ := p
    by_cases hk : k = k0
    · subst hk
      simp [lookupRes] at h
      simp [h]
    · simp [lookupRes, hk] at h
      exact List.mem_cons_of_mem _ (ih h)

theorem list_any_congr {α : Type} {l : List α} {f g : α → Bool}
    (h : ∀ x ∈ l, f x = g x) : l.any f = l.any g := by
  induction l with
  | nil => rfl
  | cons x xs ih =>
    simp only [List.any_cons]
    rw [h x (List.mem_cons_self x xs), ih fun y hy => h y (List.mem_cons_of_mem x hy)]

/-- On a well-formed registry, `hasAncestorFuel` is fuel-independent once the
fuel reaches the resource's uid: the model of the JS recursion terminating
because `parents` only reference strictly earlier ids. -/
theorem hasAncestorFuel_irrel (rs : List (Nat × CnysaResource)) (hwf : WFReg rs)
    (c : Constraint) :
    ∀ (u : Nat) (r : CnysaResource), (u, r) ∈ rs →
      ∀ f g : Nat, u ≤ f → u ≤ g → hasAncestorFuel rs c f r = hasAncestorFuel rs c g r := by
  intro u
  induction u using Nat.strong_induction_on with
  | _ u ih =>
    intro r hmem f g hf hg
    obtain ⟨huid, h1, hpar⟩ := hwf (u, r) hmem
    have h1u : 1 ≤ u := h1
    have hrec : ∀ par ∈ r.parents, ∀ f' g' : Nat, u ≤ f' + 1 → u ≤ g' + 1 →
        hasAncestorFuel rs c f' (getRes rs par) = hasAncestorFuel rs c g' (getRes rs par) := by
      intro par hp f' g' hf' hg'
      obtain ⟨hlt, hsome⟩ := hpar par hp
      have hltu : par < u := hlt
      obtain ⟨rp, hrp⟩ := Option.isSome_iff_exists.mp hsome
      have hmp : (par, rp) ∈ rs := lookupRes_mem rs par rp hrp
      have hget : getRes rs par = rp := by simp [getRes, hrp]
      rw [hget]
      exact ih par hltu rp hmp f' g' (by omega) (by omega)
    match c with
    | .ids [] => simp [hasAncestorFuel]
    | .pattern p =>
      obtain ⟨f', rfl⟩ : ∃ f', f = f' + 1 := ⟨f - 1, by omega⟩
      obtain ⟨g', rfl⟩ : ∃ g', g = g' + 1 := ⟨g - 1, by omega⟩
      simp only [hasAncestorFuel]
      congr 1
      exact list_any_congr fun par hp => hrec par hp f' g' hf hg
    | .ids (a :: l) =>
      obtain ⟨f', rfl⟩ : ∃ f', f = f' + 1 := ⟨f - 1, by omega⟩
      obtain ⟨g', rfl⟩ : ∃ g', g = g' + 1 := ⟨g - 1, by omega⟩
      simp only [hasAncestorFuel]
      congr 1
      exact list_any_congr fun par hp => hrec par hp f' g' hf hg

/-- C7 confirmed: on a well-formed registry (parents strictly earlier and
present), `hasAncestor` returns true for an empty id list; for a type pattern
it is the pattern on the resource's own type or, recursively, `hasAncestor` of
some parent; for a non-empty id list it is membership of the resource's own id
or, recursively, `hasAncestor` of some parent; and the recursion is
fuel-independent beyond the resource's uid (it terminates because parents only
reference strictly earlier ids). -/
theorem c7_hasAncestor :
    ∀ (rs : List (Nat × CnysaResource)), WFReg rs →
      ∀ (u : Nat) (r : CnysaResource), (u, r) ∈ rs →
      hasAncestor rs (.ids []) r = true ∧
      (∀ p : Pattern,
        hasAncestor rs (.pattern p) r =
          (p r.type ||
            r.parents.any fun par => hasAncestor rs (.pattern p) (getRes rs par))) ∧
      (∀ (a : Nat) (l : List Nat),
        hasAncestor rs (.ids (a :: l)) r =
          ((a :: l).contains r.uid ||
            r.parents.any fun par => hasAncestor rs (.ids (a :: l)) (getRes rs par))) ∧
      (∀ (c : Constraint) (f : Nat), r.uid ≤ f →
        hasAncestorFuel rs c f r = hasAncestor rs c r) := by
  intro rs hwf u r hmem
  obtain ⟨huid, h1, hpar⟩ := hwf (u, r) hmem
  have huid' : r.uid = u := huid
  have h1' : 1 ≤ u := h1
  have hparstep : ∀ (c : Constraint) (par : Nat), par ∈ r.parents →
      hasAncestorFuel rs c (r.uid - 1) (getRes rs par) = hasAncestor rs c (getRes rs par) := by
    intro c par hp
    obtain ⟨hlt, hsome⟩ := hpar par hp
    have hlt' : par < u := hlt
    obtain ⟨rp, hrp⟩ := Option.isSome_iff_exists.mp hsome
    have hmp : (par, rp) ∈ rs := lookupRes_mem rs par rp hrp
    have hpu : rp.uid = par := (hwf (par, rp) hmp).1
    have hget : getRes rs par = rp := by simp [getRes, hrp]
    rw [hget]
    show hasAncestorFuel rs c (r.uid - 1) rp = hasAncestorFuel rs c rp.uid rp
    exact hasAncestorFuel_irrel rs hwf c par rp hmp (r.uid - 1) rp.uid
      (by omega) (by omega)
  obtain ⟨u', hu'⟩ : ∃ u', r.uid = u' + 1 := ⟨r.uid - 1, by omega⟩
  refine ⟨by simp [hasAncestor, hasAncestorFuel], ?_, ?_, ?_⟩
  · intro p
    rw [hasAncestor, hu']
    simp only [hasAncestorFuel]
    congr 1
    refine list_any_congr fun par hp => ?_
    have := hparstep (.pattern p) par hp
    rw [hu'] at this
    simpa using this
  · intro a l
    have key : hasAncestorFuel rs (.ids (a :: l)) (u' + 1) r =
        ((a :: l).contains r.uid ||
          r.parents.any fun par => hasAncestor rs (.ids (a :: l)) (getRes rs par)) := by
      simp only [hasAncestorFuel]
      congr 1
      refine list_any_congr fun par hp => ?_
      have := hparstep (.ids (a :: l)) par hp
      rw [hu'] at this
      simpa using this
    rw [hasAncestor,
      show hasAncestorFuel rs (Constraint.ids (a :: l)) r.uid r =
          hasAncestorFuel rs (Constraint.ids (a :: l)) (u' + 1) r from by rw [hu']]
    exact key
  · intro c f hf
    exact hasAncestorFuel_irrel rs hwf c u r hmem f r.uid (by omega) (by omega)

theorem c7_witness :
    WFReg sampleRegistry ∧ (2, sampleChild) ∈ sampleRegistry ∧
      hasAncestor sampleRegistry (.ids []) sampleChild = true := by
  have hwf : WFReg sampleRegistry := by
    intro p hp
    simp [sampleRegistry] at hp
    rcases hp with h | h <;> subst h <;>
      simp [sampleRoot, sampleChild, lookupRes, sampleRegistry]
  have hmem : (2, sampleChild) ∈ sampleRegistry := by simp [sampleRegistry]
  exact ⟨hwf, hmem, (c7_hasAncestor sampleRegistry hwf 2 sampleChild hmem).1⟩

theorem rootAfterCount_append (a b : List CnysaEvent) :
    rootAfterCount (a ++ b) = rootAfterCount a + rootAfterCount b :=
  List.countP_append _ _ _

theorem rootAfterCount_single (ev : CnysaEvent) :
    rootAfterCount [ev] = if ev.uid = 1 ∧ ev.type = .after then 1 else 0 := by
  simp [rootAfterCount, List.countP_cons]

theorem hookBefore_none (s : CnysaState) (now uid : Nat) (raw : List Frame)
    (hl : lookupRes s.resources uid = none) : hookBefore s now uid raw = s := by
  unfold hookBefore
  rw [hl]

theorem hookBefore_internal (s : CnysaState) (now uid : Nat) (raw : List Frame)
    (r : CnysaResource) (hl : lookupRes s.resources uid = some r)
    (hint : r.internal = true) : hookBefore s now uid raw = s := by
  unfold hookBefore
  rw [hl]
  simp [hint]

/-- The first `before` for a registered, non-internal, non-custom resource
while the flag is down: the synthetic root `after` is appended, the root scope
popped, then the `before` recorded and the scope pushed. -/
theorem hookBefore_first (s : CnysaState) (now uid : Nat) (raw : List Frame)
    (r : CnysaResource) (hl : lookupRes s.resources uid = some r)
    (hint : r.internal = false) (hcust : r.custom = false)
    (hflag : s.globalContinuationEnded = false) :
    hookBefore s now uid raw =
      { s with globalContinuationEnded := true,
               events := s.events ++
                 [{ timestamp := now, uid := 1, type := .after },
                  { timestamp := now, uid := uid, type := .before }],
               currentScopes := jsPop s.currentScopes ++
                 [{ id := uid, stack := raw.drop 4 }] } := by
  unfold hookBefore
  rw [hl]
  simp [hint, hcust, hflag]

theorem hookBefore_plain (s : CnysaState) (now uid : Nat) (raw : List Frame)
    (r : CnysaResource) (hl : lookupRes s.resources uid = some r)
    (hint : r.internal = false) (hcond : (!s.globalContinuationEnded && !r.custom) = false) :
    hookBefore s now uid raw =
      { s with events := s.events ++ [{ timestamp := now, uid := uid, type := .before }],
               currentScopes := s.currentScopes ++ [{ id := uid, stack := raw.drop 4 }] } := by
  unfold hookBefore
  rw [hl]
  simp [hint, hcond]

theorem hookAfter_none (s : CnysaState) (now uid : Nat)
    (hl : lookupRes s.resources uid = none) : hookAfter s now uid = s := by
  unfold hookAfter
  rw [hl]

theorem hookAfter_internal (s : CnysaState) (now uid : Nat)
    (r : CnysaResource) (hl : lookupRes s.resources uid = some r)
    (hint : r.internal = true) : hookAfter s now uid = s := by
  unfold hookAfter
  rw [hl]
  simp [hint]

theorem hookAfter_some (s : CnysaState) (now uid : Nat)
    (r : CnysaResource) (hl : lookupRes s.resources uid = some r)
    (hint : r.internal = false) :
    hookAfter s now uid =
      { s with events := s.events ++ [{ timestamp := now, uid := uid, type := .after }],
               currentScopes := jsPop s.currentScopes } := by
  unfold hookAfter
  rw [hl]
  simp [hint]

theorem hookDestroy_none (s : CnysaState) (now uid : Nat)
    (hl : lookupRes s.resources uid = none) : hookDestroy s now uid = s := by
  unfold hookDestroy
  rw [hl]

theorem hookDestroy_internal (s : CnysaState) (now uid : Nat)
    (r : CnysaResource) (hl : lookupRes s.resources uid = some r)
    (hint : r.internal = true) : hookDestroy s now uid = s := by
  unfold hookDestroy
  rw [hl]
  simp [hint]

theorem hookDestroy_some (s : CnysaState) (now uid : Nat)
    (r : CnysaResource) (hl : lookupRes s.resources uid = some r)
    (hint : r.internal = false) :
    hookDestroy s now uid =
      { s with events := s.events ++
          [{ timestamp := now, uid := uid, type := .destroy }] } := by
  unfold hookDestroy
  rw [hl]
  simp [hint]

/-- A state whose registry keeps the root entry, whose log grows by `evs`, and
whose flag accounts for the root `after` events among `evs`, keeps `RootInv`. -/
theorem RootInv_of (s s' : CnysaState) (evs : List CnysaEvent)
    (hres : lookupRes s'.resources 1 = lookupRes s.resources 1)
    (hev : s'.events = s.events ++ evs)
    (h : RootInv s)
    (hcnt : (if s.globalContinuationEnded = true then 1 else 0) + rootAfterCount evs =
      (if s'.globalContinuationEnded = true then 1 else 0)) : RootInv s' := by
  obtain ⟨⟨rr, hrr, hri⟩, hcount⟩ := h
  refine ⟨⟨rr, hres.trans hrr, hri⟩, ?_⟩
  rw [hev, rootAfterCount_append, hcount, hcnt]

theorem hookInit_rootInv (s : CnysaState) (now uid : Nat) (ty : List Char)
    (trig eid : Nat) (raw : List Frame) (im ic : Bool) (huid : uid ≠ 1)
    (h : RootInv s) : RootInv (hookInit s now uid ty trig eid raw im ic) := by
  unfold hookInit
  by_cases hz : s.ignoreResources ≠ 0
  · rw [if_pos hz]
    exact RootInv_of s _ [] rfl (by simp) h (by simp [rootAfterCount])
  · rw [if_neg hz]
    by_cases hm : im = true
    · rw [if_pos hm]
      refine RootInv_of s _ [{ timestamp := now, uid := uid, type := .internal }]
        ?_ rfl h (by simp [rootAfterCount_single])
      exact lookupRes_insertRes_ne _ _ _ _ (fun hh => huid hh.symm)
    · rw [if_neg hm]
      refine RootInv_of s _ [{ timestamp := now, uid := uid, type := .init }]
        ?_ rfl h (by simp [rootAfterCount_single])
      exact lookupRes_insertRes_ne _ _ _ _ (fun hh => huid hh.symm)

theorem hookBefore_rootInv (s : CnysaState) (now uid : Nat) (raw : List Frame)
    (h : RootInv s) : RootInv (hookBefore s now uid raw) := by
  cases hl : lookupRes s.resources uid with
  | none =>
    rw [hookBefore_none s now uid raw hl]
    exact h
  | some r =>
    by_cases hint : r.internal = true
    · rw [hookBefore_internal s now uid raw r hl hint]
      exact h
    · have hint' : r.internal = false := by
        cases hi : r.internal
        · rfl
        · exact absurd hi hint
      by_cases hcond : (!s.globalContinuationEnded && !r.custom) = true
      · have hflag : s.globalContinuationEnded = false := by
          cases hfe : s.globalContinuationEnded
          · rfl
          · rw [hfe] at hcond
            simp at hcond
        have hcust : r.custom = false := by
          cases hc : r.custom
          · rfl
          · rw [hc] at hcond
            simp at hcond
        rw [hookBefore_first s now uid raw r hl hint' hcust hflag]
        refine RootInv_of s _
          [{ timestamp := now, uid := 1, type := .after },
           { timestamp := now, uid := uid, type := .before }]
          rfl rfl h ?_
        rw [hflag]
        simp [rootAfterCount, List.countP_cons]
      · have hcond' : (!s.globalContinuationEnded && !r.custom) = false := by
          cases hc : (!s.globalContinuationEnded && !r.custom)
          · rfl
          · exact absurd hc hcond
        rw [hookBefore_plain s now uid raw r hl hint' hcond']
        exact RootInv_of s _ [{ timestamp := now, uid := uid, type := .before }]
          rfl rfl h (by simp [rootAfterCount_single])

theorem hookAfter_rootInv (s : CnysaState) (now uid : Nat)
    (h : RootInv s) : RootInv (hookAfter s now uid) := by
  cases hl : lookupRes s.resources uid with
  | none =>
    rw [hookAfter_none s now uid hl]
    exact h
  | some r =>
    by_cases hint : r.internal = true
    · rw [hookAfter_internal s now uid r hl hint]
      exact h
    · have hint' : r.internal = false := by
        cases hi : r.internal
        · rfl
        · exact absurd hi hint
      have huid : uid ≠ 1 := by
        intro hh
        subst hh
        obtain ⟨⟨rr, hrr, hri⟩, -⟩ := h
        rw [hrr] at hl
        cases hl
        exact hint hri
      rw [hookAfter_some s now uid r hl hint']
      refine RootInv_of s _ [{ timestamp := now, uid := uid, type := .after }]
        rfl rfl h ?_
      have hne : ¬(((uid : Nat) : Int) = 1 ∧ EventType.after = EventType.after) := by
        rintro ⟨hu, -⟩
        exact huid (by exact_mod_cast hu)
      simp [rootAfterCount_single, hne, huid]

theorem hookDestroy_rootInv (s : CnysaState) (now uid : Nat)
    (h : RootInv s) : RootInv (hookDestroy s now uid) := by
  cases hl : lookupRes s.resources uid with
  | none =>
    rw [hookDestroy_none s now uid hl]
    exact h
  | some r =>
    by_cases hint : r.internal = true
    · rw [hookDestroy_internal s now uid r hl hint]
      exact h
    · have hint' : r.internal = false := by
        cases hi : r.internal
        · rfl
        · exact absurd hi hint
      rw [hookDestroy_some s now uid r hl hint']
      exact RootInv_of s _ [{ timestamp := now, uid := uid, type := .destroy }]
        rfl rfl h (by simp [rootAfterCount_single])

theorem hookPromiseResolve_rootInv (s : CnysaState) (now uid : Nat)
    (h : RootInv s) : RootInv (hookPromiseResolve s now uid) :=
  RootInv_of s _ [{ timestamp := now, uid := uid, type := .promiseResolve }]
    rfl rfl h (by simp [rootAfterCount_single, hookPromiseResolve])

theorem snapshot_rootInv (s : CnysaState) (opts : CnysaOptionsP) (now : Nat)
    (conv : List Char → List Char) (h : RootInv s) :
    RootInv (createAsyncSnapshot s opts now conv).2 := by
  unfold createAsyncSnapshot
  cases hf : s.globalContinuationEnded
  · rw [if_neg (by simp [hf])]
    refine RootInv_of s _ [{ timestamp := now, uid := 1, type := .after }] rfl rfl h ?_
    rw [hf]
    simp [rootAfterCount_single]
  · rw [if_pos (by simp [hf])]
    exact h

theorem applyOp_rootInv (s : CnysaState) (op : Op) (hop : opAvoidsRoot op = true)
    (h : RootInv s) : RootInv (applyOp s op) := by
  cases op with
  | init a =>
    have huid : a.uid ≠ 1 := by simpa [opAvoidsRoot] using hop
    exact hookInit_rootInv s a.now a.uid a.ty a.triggerId a.eid a.rawStack a.isMark
      a.isCustom huid h
  | before now uid raw => exact hookBefore_rootInv s now uid raw h
  | after now uid => exact hookAfter_rootInv s now uid h
  | destroy now uid => exact hookDestroy_rootInv s now uid h
  | promiseResolve now uid => exact hookPromiseResolve_rootInv s now uid h
  | markCall now uid trig eid tag raw =>
    have huid : uid ≠ 1 := by simpa [opAvoidsRoot] using hop
    exact hookDestroy_rootInv _ now uid
      (hookInit_rootInv s now uid _ trig eid raw true true huid h)
  | ignoreNextCall n => exact h
  | snapshot opts now conv => exact snapshot_rootInv s opts now conv h
  | stackTrace opts frames => exact h

theorem runOps_rootInv (ops : List Op) (s : CnysaState)
    (hops : ∀ op ∈ ops, opAvoidsRoot op = true) (h : RootInv s) :
    RootInv (runOps s ops) := by
  induction ops generalizing s with
  | nil => exact h
  | cons op rest ih =>
    exact ih (applyOp s op)
      (fun o ho => hops o (List.mem_cons_of_mem op ho))
      (applyOp_rootInv s op (hops op (List.mem_cons_self op rest)) h)

/-- C6 counterexample: when a `createAsyncSnapshot` call precedes the first
`onEnter`, the synthetic root `after` is already in the log (appended by the
snapshot), and the first `onEnter` for a non-marker, non-custom resource
appends only its own `before` event — not a synthetic root `after`. -/
theorem c6_counterexample :
    (runOps (initialState 0 {})
        [Op.init { now := 0, uid := 2, ty := "T".data, triggerId := 1, eid := 1,
                   rawStack := [], isMark := false, isCustom := false },
         Op.snapshot {} 1 id]).events =
      [{ timestamp := 0, uid := 1, type := .before },
       { timestamp := 0, uid := 2, type := .init },
       { timestamp := 1, uid := 1, type := .after }] ∧
    (runOps (initialState 0 {})
        [Op.init { now := 0, uid := 2, ty := "T".data, triggerId := 1, eid := 1,
                   rawStack := [], isMark := false, isCustom := false },
         Op.snapshot {} 1 id,
         Op.before 2 2 []]).events =
      [{ timestamp := 0, uid := 1, type := .before },
       { timestamp := 0, uid := 2, type := .init },
       { timestamp := 1, uid := 1, type := .after },
       { timestamp := 2, uid := 2, type := .before }] := by
  constructor
  · rfl
  · rfl

/-- C6 amended: over any run whose creations avoid the root id, the number of
root `after` events in the log equals the flag indicator and in particular
never exceeds one; and an `onEnter` for a registered non-marker, non-custom
resource appends the synthetic root `after` exactly when
`globalContinuationEnded` is still false at that point (a preceding
`createAsyncSnapshot` call may already have raised it). -/
theorem c6_amended :
    ∀ (opts0 : CnysaOptionsP) (now0 : Nat) (ops : List Op)
      (s : CnysaState) (now uid : Nat) (raw : List Frame) (r : CnysaResource),
      (∀ op ∈ ops, opAvoidsRoot op = true) →
      ((rootAfterCount (runOps (initialState now0 opts0) ops).events =
          (if (runOps (initialState now0 opts0) ops).globalContinuationEnded = true
           then 1 else 0)) ∧
        rootAfterCount (runOps (initialState now0 opts0) ops).events ≤ 1) ∧
      (lookupRes s.resources uid = some r → r.internal = false → r.custom = false →
        s.globalContinuationEnded = false →
        hookBefore s now uid raw =
          { s with globalContinuationEnded := true,
                   events := s.events ++
                     [{ timestamp := now, uid := 1, type := .after },
                      { timestamp := now, uid := uid, type := .before }],
                   currentScopes := jsPop s.currentScopes ++
                     [{ id := uid, stack := raw.drop 4 }] }) := by
  intro opts0 now0 ops s now uid raw r hops
  have hinv0 : RootInv (initialState now0 opts0) := by
    refine ⟨⟨_, rfl, rfl⟩, ?_⟩
    rfl
  have hinv := runOps_rootInv ops (initialState now0 opts0) hops hinv0
  refine ⟨⟨hinv.2, ?_⟩, ?_⟩
  · rw [hinv.2]
    cases (runOps (initialState now0 opts0) ops).globalContinuationEnded <;> simp
  · intro hl hint hcust hflag
    exact hookBefore_first s now uid raw r hl hint hcust hflag

theorem c6_witness :
    ([Op.init { now := 0, uid := 2, ty := "T".data, triggerId := 1, eid := 1,
                rawStack := [], isMark := false, isCustom := false },
      Op.before 1 2 []].all opAvoidsRoot) = true ∧
      rootAfterCount (runOps (initialState 0 {})
        [Op.init { now := 0, uid := 2, ty := "T".data, triggerId := 1, eid := 1,
                   rawStack := [], isMark := false, isCustom := false },
         Op.before 1 2 []]).events ≤ 1 :=
  ⟨by decide,
    (c6_amended {} 0
      [Op.init { now := 0, uid := 2, ty := "T".data, triggerId := 1, eid := 1,
                 rawStack := [], isMark := false, isCustom := false },
       Op.before 1 2 []]
      (initialState 0 {}) 0 0 [] sampleChild (by decide)).1.2⟩

theorem modifyLast_pres {α : Type} (P : α → Prop) (f : α → α) (hf : ∀ x, P x → P (f x)) :
    ∀ l : List α, (∀ x ∈ l, P x) → ∀ y ∈ modifyLast f l, P y := by
  intro l
  induction l with
  | nil =>
    intro _ y hy
    simp [modifyLast] at hy
  | cons a rest ih =>
    intro h y hy
    cases rest with
    | nil =>
      simp [modifyLast] at hy
      subst hy
      exact hf a (h a (by simp))
    | cons b t =>
      rw [modifyLast] at hy
      rcases List.mem_cons.mp hy with h1 | h2
      · subst h1
        exact h y (by simp)
      · exact ih (fun x hx => h x (List.mem_cons_of_mem a hx)) y h2

theorem appendChar_inv (b : StringRowsBuilder) (c : Char) (st : Option Color)
    (hb : BuilderInv b) : BuilderInv (appendChar b c st) := by
  have base : ∀ x ∈ (if b.currentLength = 0
        then b.data ++ [{ str := [], length := 0, dirty := false }] else b.data),
      x.dirty = x.str.any fun ch => !cleanChar ch := by
    intro x hx
    by_cases h0 : b.currentLength = 0
    · rw [if_pos h0] at hx
      rcases List.mem_append.mp hx with h | h
      · exact hb x h
      · simp at h
        subst h
        simp
    · rw [if_neg h0] at hx
      exact hb x hx
  intro sd hsd
  refine modifyLast_pres (fun x => x.dirty = x.str.any fun ch => !cleanChar ch) _
    ?_ _ base sd hsd
  intro x hx
  simp [cleanChar, List.any_append, hx]

theorem trackOf_inv (tracks : List (Nat × TrackState)) (k : Nat)
    (h : TracksInv tracks) : BuilderInv (trackOf tracks k).str := by
  unfold trackOf
  cases hf : tracks.find? (fun p => p.1 = k) with
  | none =>
    intro sd hsd
    exact absurd hsd (by simp)
  | some p => exact h p (List.mem_of_find?_eq_some hf)

theorem setTrack_inv (tracks : List (Nat × TrackState)) (k : Nat) (ts : TrackState)
    (h : TracksInv tracks) (hts : BuilderInv ts.str) :
    TracksInv (setTrack tracks k ts) := by
  intro p hp
  unfold setTrack at hp
  rcases List.mem_map.mp hp with ⟨q, hq, hqe⟩
  by_cases hk : q.1 = k
  · rw [if_pos hk] at hqe
    rw [← hqe]
    exact hts
  · rw [if_neg hk] at hqe
    rw [← hqe]
    exact h q hq

theorem trackStepOwn_inv (ts : TrackState) (stack : List Nat) (ev : CnysaEvent) (k : Nat)
    (h : BuilderInv ts.str) : BuilderInv (trackStepOwn ts stack ev k).1.str := by
  obtain ⟨tsp, uid, ty⟩ := ev
  cases ty with
  | init => exact appendChar_inv ts.str '*' (some .green) h
  | before => exact appendChar_inv ts.str '{' (some .blue) h
  | after => exact appendChar_inv ts.str '}' (some .blue) h
  | destroy => exact appendChar_inv ts.str '*' (some .red) h
  | promiseResolve => exact appendChar_inv ts.str '*' (some .gray) h
  | internal => exact appendChar_inv ts.str '*' (some .cyan) h
  | pad => exact appendChar_inv ts.str '?' (some .gray) h

theorem processKey_inv (ev : CnysaEvent) (acc : RenderAcc) (k : Nat)
    (h : TracksInv acc.tracks) : TracksInv (processKey ev acc k).tracks := by
  unfold processKey
  by_cases hc : ev.uid = (k : Int)
  · rw [if_pos hc]
    exact setTrack_inv _ _ _ h (trackStepOwn_inv _ _ _ _ (trackOf_inv _ _ h))
  · rw [if_neg hc]
    exact setTrack_inv acc.tracks k _ h
      (appendChar_inv (trackOf acc.tracks k).str
        (otherTrackChar ev.uid ev.type k acc.stack (trackOf acc.tracks k).alive).1
        (otherTrackChar ev.uid ev.type k acc.stack (trackOf acc.tracks k).alive).2
        (trackOf_inv acc.tracks k h))

theorem foldl_processKey_inv (ev : CnysaEvent) (keys : List Nat) :
    ∀ acc : RenderAcc, TracksInv acc.tracks →
      TracksInv (keys.foldl (processKey ev) acc).tracks := by
  induction keys with
  | nil => intro acc h; exact h
  | cons k ks ih =>
    intro acc h
    rw [List.foldl_cons]
    exact ih (processKey ev acc k) (processKey_inv ev acc k h)

theorem initTracks_inv (keys : List Nat) (adj : Option Int) :
    TracksInv (initTracks keys adj) := by
  intro p hp
  rcases List.mem_map.mp hp with ⟨k, -, hke⟩
  rw [← hke]
  intro sd hsd
  exact absurd hsd (by simp)

theorem foldl_processEvent_inv (keys : List Nat) :
    ∀ (evs : List CnysaEvent) (acc : RenderAcc), TracksInv acc.tracks →
      TracksInv (evs.foldl (processEvent keys) acc).tracks := by
  intro evs
  induction evs with
  | nil => intro acc h; exact h
  | cons ev rest ih =>
    intro acc h
    rw [List.foldl_cons]
    exact ih _ (foldl_processKey_inv ev keys acc h)

theorem renderTracks_inv (s : CnysaState) (config : SnapshotConfig) :
    TracksInv (renderTracks s config).tracks := by
  unfold renderTracks
  exact foldl_processEvent_inv _ _ _ (initTracks_inv _ _)

theorem le_foldl_maxLength {α : Type} :
    ∀ (l : List (List α)) (row : List α), row ∈ l →
      ∀ a : Nat, row.length ≤ l.foldl (fun acc next => max next.length acc) a := by
  have init_le : ∀ (l : List (List α)) (a : Nat),
      a ≤ l.foldl (fun acc next => max next.length acc) a := by
    intro l
    induction l with
    | nil => intro a; exact Nat.le_refl a
    | cons x xs ih =>
      intro a
      rw [List.foldl_cons]
      exact Nat.le_trans (Nat.le_max_right x.length a) (ih _)
  intro l
  induction l with
  | nil => intro row h; exact absurd h (by simp)
  | cons x xs ih =>
    intro row h a
    rcases List.mem_cons.mp h with h1 | h2
    · subst h1
      rw [List.foldl_cons]
      exact Nat.le_trans (Nat.le_max_left row.length a) (init_le _ _)
    · rw [List.foldl_cons]
      exact ih row h2 _

theorem interleave_mem {α : Type} (rows : List (List α)) (sep : Option α)
    (row : List α) (x : α) (i : Nat) (hrow : row ∈ rows) (hx : row.get? i = some x) :
    x ∈ interleave rows sep := by
  unfold interleave
  have hi : i < row.length := by
    cases hlt : Nat.decLt i row.length with
    | isTrue h => exact h
    | isFalse h =>
      rw [List.get?_eq_none.mpr (Nat.le_of_not_lt h)] at hx
      cases hx
  refine List.mem_flatMap.mpr ⟨i, ?_, ?_⟩
  · exact List.mem_range.mpr (Nat.lt_of_lt_of_le hi (le_foldl_maxLength rows row hrow 0))
  · exact List.mem_append_right _ (List.mem_filterMap.mpr ⟨row, hrow, hx⟩)

theorem list_all_eq_not_any_not (l : List Char) (p : Char → Bool) :
    l.all p = !(l.any fun c => !p c) := by
  induction l with
  | nil => rfl
  | cons a t ih => simp [List.all_cons, List.any_cons, ih]

/-- C3 amended: a wrapped segment's dirty flag holds exactly when some
character is neither a space nor a `|` connector; every dirty segment's
rendered line appears among the final page's lines, while a non-dirty segment
consists solely of spaces and `|` connectors (its `dataLines` entry is the
empty line, which the page filter drops). -/
theorem c3_amended :
    ∀ (s : CnysaState) (config : SnapshotConfig) (k : Nat) (sd : StringData),
      k ∈ resKeys s.resources →
      sd ∈ (trackOf (renderTracks s config).tracks k).str.data →
      (sd.dirty = sd.str.any fun c => !cleanChar c) ∧
      (sd.dirty = true →
        (leftPadTo (trackLabel (getRes s.resources k))
            (rowHeaderLengthOpt s (ignoredSet s config)) ++ sd.str) ∈
          snapshotLines s config) ∧
      (sd.dirty = false → sd.str.all cleanChar = true) := by
  intro s config k sd hk hsd
  have hinv : BuilderInv (trackOf (renderTracks s config).tracks k).str :=
    trackOf_inv _ _ (renderTracks_inv s config)
  have hA : sd.dirty = sd.str.any fun c => !cleanChar c := hinv sd hsd
  refine ⟨hA, ?_, ?_⟩
  · intro hdirty
    obtain ⟨i, hi⟩ := List.get?_of_mem hsd
    set rhl := rowHeaderLengthOpt s (ignoredSet s config) with hrhl
    set line := leftPadTo (trackLabel (getRes s.resources k)) rhl ++ sd.str with hline
    have hrowmem : ((trackOf (renderTracks s config).tracks k).str.data.map fun rhs =>
          if !rhs.dirty then []
          else leftPadTo (trackLabel (getRes s.resources k)) rhl ++ rhs.str) ∈
        dataLinesOf s (renderTracks s config).tracks rhl := by
      unfold dataLinesOf
      exact List.mem_map.mpr ⟨k, hk, rfl⟩
    have hget : ((trackOf (renderTracks s config).tracks k).str.data.map fun rhs =>
          if !rhs.dirty then []
          else leftPadTo (trackLabel (getRes s.resources k)) rhl ++ rhs.str).get? i =
        some line := by
      rw [List.get?_map, hi]
      simp [hdirty, hline]
    have hmem := interleave_mem _
      (some (List.replicate
        (separatorLen (resKeys s.resources) (renderTracks s config).tracks rhl) ':'))
      _ line i hrowmem hget
    have hpos : 0 < line.length := by
      rw [hline]
      have : sd.str ≠ [] := by
        intro hnil
        rw [hnil] at hA
        rw [hA] at hdirty
        cases hdirty
      cases hs : sd.str with
      | nil => exact absurd hs this
      | cons a t => simp [hs]
    unfold snapshotLines
    refine List.mem_append.mpr (Or.inl (List.mem_append.mpr (Or.inr ?_)))
    refine List.mem_filter.mpr ⟨hmem, ?_⟩
    simpa using hpos
  · intro hclean
    rw [list_all_eq_not_any_not, ← hA, hclean]
    rfl

/-- C3 counterexample: resource 2's wrapped segment contains a `|` connector
yet is non-dirty, and no line of the final page contains a `|` — a segment
containing a `|` glyph can be suppressed, because `appendChar` treats `|` as
clean. -/
theorem c3_counterexample :
    (trackOf (renderTracks hideScenarioState hideScenarioConfig).tracks 2).str.data =
      [{ str := [' ', ' ', '|', ' '], length := 4, dirty := false }] ∧
    ((snapshotLines hideScenarioState hideScenarioConfig).all
      fun line => !line.contains '|') = true := by
  constructor
  · decide
  · decide

theorem c3_witness :
    ((1 ∈ resKeys hideScenarioState.resources) ∧
      ({ str := ['{', '.', '.', '.'], length := 4, dirty := true } : StringData) ∈
        (trackOf (renderTracks hideScenarioState hideScenarioConfig).tracks 1).str.data) ∧
    (leftPadTo (trackLabel (getRes hideScenarioState.resources 1))
        (rowHeaderLengthOpt hideScenarioState (ignoredSet hideScenarioState hideScenarioConfig))
      ++ ['{', '.', '.', '.']) ∈ snapshotLines hideScenarioState hideScenarioConfig :=
  ⟨⟨by decide, by decide⟩,
    (c3_amended hideScenarioState hideScenarioConfig 1
      { str := ['{', '.', '.', '.'], length := 4, dirty := true }
      (by decide) (by decide)).2.1 rfl⟩

theorem dropWhile_append_all {α : Type} (p : α → Bool) (l₁ l₂ : List α)
    (h : ∀ c ∈ l₁, p c = true) :
    (l₁ ++ l₂).dropWhile p = l₂.dropWhile p := by
  induction l₁ with
  | nil => rfl
  | cons a t ih =>
    rw [List.cons_append, List.dropWhile_cons, h a (by simp), if_pos rfl]
    exact ih fun c hc => h c (List.mem_cons_of_mem a hc)

theorem dropWhile_append_pos {α : Type} (p : α → Bool) (l₁ l₂ : List α)
    (h : l₁.dropWhile p ≠ []) :
    (l₁ ++ l₂).dropWhile p = l₁.dropWhile p ++ l₂ := by
  induction l₁ with
  | nil => exact absurd rfl h
  | cons a t ih =>
    rw [List.cons_append, List.dropWhile_cons, List.dropWhile_cons]
    cases hp : p a with
    | true =>
      rw [if_pos rfl, if_pos rfl]
      rw [List.dropWhile_cons, hp] at h
      simp only [if_pos rfl] at h
      exact ih h
    | false =>
      simp

theorem dropWhile_head_not {α : Type} (p : α → Bool) (l : List α) (a : α) (t : List α)
    (h : l.dropWhile p = a :: t) : p a = false := by
  induction l with
  | nil => cases h
  | cons b r ih =>
    rw [List.dropWhile_cons] at h
    cases hp : p b with
    | true =>
      rw [hp] at h
      simp only [if_pos rfl] at h
      exact ih h
    | false =>
      rw [hp] at h
      simp only [Bool.false_eq_true, if_false] at h
      cases h
      exact hp

theorem dropWhile_all_of_eq_nil {α : Type} (p : α → Bool) (l : List α)
    (h : l.dropWhile p = []) : ∀ c ∈ l, p c = true := by
  induction l with
  | nil => intro c hc; exact absurd hc (by simp)
  | cons a t ih =>
    rw [List.dropWhile_cons] at h
    cases hp : p a with
    | true =>
      rw [hp] at h
      simp only [if_pos rfl] at h
      intro c hc
      rcases List.mem_cons.mp hc with h1 | h2
      · rw [h1]; exact hp
      · exact ih h c h2
    | false =>
      rw [hp] at h
      simp at h

theorem dropWhile_eq_nil_of_all {α : Type} (p : α → Bool) (l : List α)
    (h : ∀ c ∈ l, p c = true) : l.dropWhile p = [] := by
  induction l with
  | nil => rfl
  | cons a t ih =>
    rw [List.dropWhile_cons, h a (by simp), if_pos rfl]
    exact ih fun c hc => h c (List.mem_cons_of_mem a hc)

theorem dropWhile_idem {α : Type} (p : α → Bool) (l : List α) :
    (l.dropWhile p).dropWhile p = l.dropWhile p := by
  cases hd : l.dropWhile p with
  | nil => rfl
  | cons a t =>
    rw [List.dropWhile_cons, dropWhile_head_not p l a t hd]
    simp

theorem getLast?_cons_ne_nil {α : Type} (a : α) (t : List α) (h : t ≠ []) :
    (a :: t).getLast? = t.getLast? := by
  cases t with
  | nil => exact absurd rfl h
  | cons b t' => simp [List.getLast?_cons_cons]

theorem dropWhile_getLast? {α : Type} (p : α → Bool) (l : List α)
    (h : l.dropWhile p ≠ []) : (l.dropWhile p).getLast? = l.getLast? := by
  induction l with
  | nil => exact absurd rfl h
  | cons a t ih =>
    rw [List.dropWhile_cons]
    cases hp : p a with
    | true =>
      rw [if_pos rfl]
      rw [List.dropWhile_cons, hp] at h
      simp only [if_pos rfl] at h
      have ht : t ≠ [] := by
        intro he
        rw [he] at h
        exact h rfl
      rw [ih h, getLast?_cons_ne_nil a t ht]
    | false =>
      simp

theorem rtrim_append_ws (a b : List Char) (h : ∀ c ∈ b, isWS c = true) :
    rtrim (a ++ b) = rtrim a := by
  unfold rtrim
  rw [List.reverse_append, dropWhile_append_all isWS b.reverse a.reverse
    (fun c hc => h c (List.mem_reverse.mp hc))]

theorem rtrim_ne_nil_iff (b : List Char) :
    rtrim b ≠ [] ↔ b.reverse.dropWhile isWS ≠ [] := by
  unfold rtrim
  constructor
  · intro h he
    rw [he] at h
    exact h rfl
  · intro h he
    rw [List.reverse_eq_nil_iff] at he
    exact h he

theorem rtrim_append_ne (a b : List Char) (h : rtrim b ≠ []) :
    rtrim (a ++ b) = a ++ rtrim b := by
  unfold rtrim
  rw [List.reverse_append,
    dropWhile_append_pos isWS b.reverse a.reverse ((rtrim_ne_nil_iff b).mp h),
    List.reverse_append, List.reverse_reverse]

theorem rtrim_eq_nil_of_ws (l : List Char) (h : ∀ c ∈ l, isWS c = true) :
    rtrim l = [] := by
  unfold rtrim
  rw [dropWhile_eq_nil_of_all isWS l.reverse (fun c hc => h c (List.mem_reverse.mp hc))]
  rfl

theorem ws_of_rtrim_eq_nil (l : List Char) (h : rtrim l = []) :
    ∀ c ∈ l, isWS c = true := by
  unfold rtrim at h
  rw [List.reverse_eq_nil_iff] at h
  intro c hc
  exact dropWhile_all_of_eq_nil isWS l.reverse h c (List.mem_reverse.mpr hc)

theorem rtrim_idem (l : List Char) : rtrim (rtrim l) = rtrim l := by
  unfold rtrim
  rw [List.reverse_reverse, dropWhile_idem]

theorem rtrim_getLast_not (l : List Char) (c : Char)
    (h : (rtrim l).getLast? = some c) : isWS c = false := by
  unfold rtrim at h
  rw [List.getLast?_reverse] at h
  cases hd : l.reverse.dropWhile isWS with
  | nil =>
    rw [hd] at h
    cases h
  | cons a t =>
    rw [hd] at h
    simp only [List.head?_cons] at h
    cases h
    exact dropWhile_head_not isWS l.reverse c t hd

theorem ltrim_append_ws (a b : List Char) (h : ∀ c ∈ a, isWS c = true) :
    ltrim (a ++ b) = ltrim b :=
  dropWhile_append_all isWS a b h

theorem ltrim_append_left (a b : List Char) (h : ltrim a = a) (hne : a ≠ []) :
    ltrim (a ++ b) = a ++ b := by
  cases a with
  | nil => exact absurd rfl hne
  | cons c t =>
    have hc : isWS c = false := dropWhile_head_not isWS (c :: t) c t h
    unfold ltrim
    rw [List.cons_append, List.dropWhile_cons, hc]
    simp

theorem ltrim_idem (l : List Char) : ltrim (ltrim l) = ltrim l :=
  dropWhile_idem isWS l

theorem ltrim_getLast? (l : List Char) (h : ltrim l ≠ []) :
    (ltrim l).getLast? = l.getLast? :=
  dropWhile_getLast? isWS l h

theorem jsTrim_ws (l : List Char) (h : ∀ c ∈ l, isWS c = true) : jsTrim l = [] := by
  unfold jsTrim
  rw [rtrim_eq_nil_of_ws l h]
  rfl

theorem jsTrim_trimmed_append_ws (S w : List Char) (hS : TrimmedNE S)
    (hw : ∀ c ∈ w, isWS c = true) : jsTrim (S ++ w) = S := by
  unfold jsTrim
  rw [rtrim_append_ws S w hw, hS.2.2, hS.2.1]

theorem jsTrim_main (S t c : List Char) (hS : TrimmedNE S)
    (ht : ∀ ch ∈ t, isWS ch = true) (hc : rtrim c ≠ []) :
    jsTrim (S ++ t ++ c) = S ++ t ++ rtrim c := by
  unfold jsTrim
  rw [rtrim_append_ne (S ++ t) c hc, List.append_assoc,
    ltrim_append_left S (t ++ rtrim c) hS.2.1 hS.1, ← List.append_assoc]

theorem jsTrim_ws_append (t c : List Char) (ht : ∀ ch ∈ t, isWS ch = true)
    (hc : rtrim c ≠ []) : jsTrim (t ++ c) = jsTrim c := by
  unfold jsTrim
  rw [rtrim_append_ne t c hc, ltrim_append_ws t (rtrim c) ht]

theorem rtrim_eq_self_of_last (l : List Char)
    (h : ∀ ch, l.getLast? = some ch → isWS ch = false) : rtrim l = l := by
  cases hl : l.reverse with
  | nil =>
    rw [List.reverse_eq_nil_iff] at hl
    rw [hl]
    rfl
  | cons a t =>
    have hlast : l.getLast? = some a := by
      rw [← List.head?_reverse, hl]
      rfl
    have ha : isWS a = false := h a hlast
    unfold rtrim
    rw [hl, List.dropWhile_cons, ha]
    simp only [Bool.false_eq_true, if_false]
    rw [← hl, List.reverse_reverse]

theorem trimmedNE_jsTrim (c : List Char) (hc : rtrim c ≠ []) : TrimmedNE (jsTrim c) := by
  have hne : ltrim (rtrim c) ≠ [] := by
    intro he
    have hall := dropWhile_all_of_eq_nil isWS (rtrim c) he
    cases hlast : (rtrim c).getLast? with
    | none =>
      rw [List.getLast?_eq_none_iff] at hlast
      exact hc hlast
    | some ch =>
      have h1 : isWS ch = false := rtrim_getLast_not c ch hlast
      have h2 : ch ∈ rtrim c := List.mem_of_mem_getLast? hlast
      rw [hall ch h2] at h1
      cases h1
  refine ⟨hne, ltrim_idem (rtrim c), ?_⟩
  apply rtrim_eq_self_of_last
  intro ch hch
  unfold jsTrim at hch
  rw [ltrim_getLast? (rtrim c) hne] at hch
  exact rtrim_getLast_not c ch hch

theorem asmStep_inv (r : List Char) (acc : AsmAcc) (op : AsmOp)
    (h : AsmInv r acc) : AsmInv (codeStep r op) (asmStep acc op) := by
  obtain ⟨hr, hs, ht⟩ := h
  cases op with
  | rowEnd =>
    have hkey : jsTrim r = acc.s := by
      rw [hr]
      rcases hs with h0 | hT
      · rw [h0, List.nil_append]
        exact jsTrim_ws acc.t ht
      · exact jsTrim_trimmed_append_ws acc.s acc.t hT ht
    refine ⟨?_, hs, ?_⟩
    · show jsTrim r ++ ['\n', '\n'] = acc.s ++ ['\n', '\n']
      rw [hkey]
    · intro c hcm
      simp only [asmStep] at hcm
      simp at hcm
      rw [hcm]
      rfl
  | line c =>
    by_cases hcl : rtrim c = []
    · have hcw : ∀ ch ∈ c, isWS ch = true := ws_of_rtrim_eq_nil c hcl
      have hkey : jsTrim (r ++ c) = acc.s := by
        rw [hr, List.append_assoc]
        rcases hs with h0 | hT
        · rw [h0, List.nil_append]
          refine jsTrim_ws _ ?_
          intro ch hch
          rcases List.mem_append.mp hch with h1 | h1
          · exact ht ch h1
          · exact hcw ch h1
        · refine jsTrim_trimmed_append_ws acc.s (acc.t ++ c) hT ?_
          intro ch hch
          rcases List.mem_append.mp hch with h1 | h1
          · exact ht ch h1
          · exact hcw ch h1
      show AsmInv (jsTrim (r ++ c) ++ ['\n']) (asmStep acc (.line c))
      rw [hkey]
      simp only [asmStep]
      rw [if_pos hcl]
      refine ⟨rfl, hs, ?_⟩
      intro ch hch
      simp at hch
      rw [hch]
      rfl
    · rcases hs with h0 | hT
      · have hkey : jsTrim (r ++ c) = jsTrim c := by
          rw [hr, h0, List.nil_append]
          exact jsTrim_ws_append acc.t c ht hcl
        show AsmInv (jsTrim (r ++ c) ++ ['\n']) (asmStep acc (.line c))
        rw [hkey]
        simp only [asmStep]
        rw [if_neg hcl, if_pos h0]
        refine ⟨rfl, Or.inr (trimmedNE_jsTrim c hcl), ?_⟩
        intro ch hch
        simp at hch
        rw [hch]
        rfl
      · have hkey : jsTrim (r ++ c) = acc.s ++ acc.t ++ rtrim c := by
          rw [hr]
          exact jsTrim_main acc.s acc.t c hT ht hcl
        show AsmInv (jsTrim (r ++ c) ++ ['\n']) (asmStep acc (.line c))
        rw [hkey]
        simp only [asmStep]
        rw [if_neg hcl, if_neg hT.1]
        refine ⟨by rw [List.append_assoc, List.append_assoc], Or.inr ?_, ?_⟩
        · refine ⟨by simp [hT.1], ?_, ?_⟩
          · rw [List.append_assoc]
            exact ltrim_append_left acc.s (acc.t ++ rtrim c) hT.2.1 hT.1
          · have hrt : rtrim (acc.t ++ rtrim c) = acc.t ++ rtrim c := by
              rw [rtrim_append_ne acc.t (rtrim c) (by rw [rtrim_idem]; exact hcl),
                rtrim_idem]
            rw [List.append_assoc, rtrim_append_ne acc.s (acc.t ++ rtrim c)
              (by rw [hrt]; intro he; simp at he; exact hcl he.2), hrt,
              ← List.append_assoc]
        · intro ch hch
          simp at hch
          rw [hch]
          rfl

theorem asmFold_inv (ops : List AsmOp) :
    ∀ (r : List Char) (acc : AsmAcc), AsmInv r acc →
      AsmInv (ops.foldl codeStep r) (ops.foldl asmStep acc) := by
  induction ops with
  | nil => intro r acc h; exact h
  | cons op rest ih =>
    intro r acc h
    rw [List.foldl_cons, List.foldl_cons]
    exact ih _ _ (asmStep_inv r acc op h)

theorem asmInv_extract (r : List Char) (acc : AsmAcc) (h : AsmInv r acc) :
    jsTrim r = acc.s := by
  obtain ⟨hr, hs, ht⟩ := h
  rw [hr]
  rcases hs with h0 | hT
  · rw [h0, List.nil_append]
    exact jsTrim_ws acc.t ht
  · exact jsTrim_trimmed_append_ws acc.s acc.t hT ht

theorem asmStep_congr (acc : AsmAcc) (o1 o2 : AsmOp) (h : OpRel o1 o2) :
    asmStep acc o1 = asmStep acc o2 := by
  cases o1 with
  | rowEnd =>
    cases o2 with
    | rowEnd => rfl
    | line c2 => exact h.elim
  | line c1 =>
    cases o2 with
    | rowEnd => exact h.elim
    | line c2 =>
      have hr : rtrim c1 = rtrim c2 := h
      simp only [asmStep, jsTrim]
      rw [hr]

theorem asmFold_congr (l1 l2 : List AsmOp) (h : List.Forall₂ OpRel l1 l2) :
    ∀ acc : AsmAcc, l1.foldl asmStep acc = l2.foldl asmStep acc := by
  induction h with
  | nil => intro acc; rfl
  | cons hab hrest ih =>
    intro acc
    rw [List.foldl_cons, List.foldl_cons, asmStep_congr acc _ _ hab]
    exact ih _

theorem forall2_append {α β : Type} (R : α → β → Prop) (a c : List α) (b d : List β)
    (h1 : List.Forall₂ R a b) (h2 : List.Forall₂ R c d) :
    List.Forall₂ R (a ++ c) (b ++ d) := by
  induction h1 with
  | nil => exact h2
  | cons hab hrest ih => exact List.Forall₂.cons hab ih

theorem forall2_map_same {α β : Type} (R : β → β → Prop) (l : List α) (f g : α → β)
    (h : ∀ x ∈ l, R (f x) (g x)) : List.Forall₂ R (l.map f) (l.map g) := by
  induction l with
  | nil => exact List.Forall₂.nil
  | cons a t ih =>
    exact List.Forall₂.cons (h a (by simp))
      (ih fun x hx => h x (List.mem_cons_of_mem a hx))

theorem forall2_flatMap_same {α β : Type} (R : β → β → Prop) (l : List α)
    (f g : α → List β) (h : ∀ x ∈ l, List.Forall₂ R (f x) (g x)) :
    List.Forall₂ R (l.flatMap f) (l.flatMap g) := by
  induction l with
  | nil => exact List.Forall₂.nil
  | cons a t ih =>
    rw [List.flatMap_cons, List.flatMap_cons]
    exact forall2_append R _ _ _ _ (h a (by simp))
      (ih fun x hx => h x (List.mem_cons_of_mem a hx))

theorem flatMap_map_comp {α β γ : Type} (l : List α) (f : α → β) (g : β → List γ) :
    (l.map f).flatMap g = l.flatMap fun x => g (f x) := by
  induction l with
  | nil => rfl
  | cons a t ih => simp [List.flatMap_cons, ih]

theorem flatMap_congr_fn {α β : Type} (l : List α) (f g : α → List β)
    (h : ∀ x ∈ l, f x = g x) : l.flatMap f = l.flatMap g := by
  induction l with
  | nil => rfl
  | cons a t ih =>
    rw [List.flatMap_cons, List.flatMap_cons, h a (by simp),
      ih fun x hx => h x (List.mem_cons_of_mem a hx)]

theorem intercalate_nil_list (s : List Char) :
    List.intercalate s ([] : List (List Char)) = [] := by
  simp [List.intercalate]

theorem intercalate_cons₂ (s a b : List Char) (t : List (List Char)) :
    List.intercalate s (a :: b :: t) = a ++ s ++ List.intercalate s (b :: t) := by
  simp [List.intercalate, List.intersperse]

theorem flatMap_append_space (ps : List (List Char)) :
    ps.flatMap (fun p => p ++ [' ']) =
      List.intercalate [' '] ps ++ (if ps.isEmpty then [] else [' ']) := by
  induction ps with
  | nil => simp [intercalate_nil_list]
  | cons p t ih =>
    cases t with
    | nil => simp [List.intercalate]
    | cons q t' =>
      rw [List.flatMap_cons, ih, intercalate_cons₂]
      simp [List.append_assoc]

theorem chunk_rel (w : Nat → Nat) (row : List (List (List Char))) (l : Nat) :
    rtrim (codeChunk w row l) = rtrim (specLine w row l) := by
  have hcode : codeChunk w row l =
      (row.enum.map fun p =>
        (p.2.get? l).getD [] ++
          List.replicate (w p.1 - ((p.2.get? l).getD []).length) ' ').flatMap
        (fun q => q ++ [' ']) := by
    rw [flatMap_map_comp]
    unfold codeChunk
    refine flatMap_congr_fn _ _ _ fun p hp => ?_
    rw [List.append_assoc]
  have hspec : specLine w row l =
      List.intercalate [' ']
        (row.enum.map fun p =>
          (p.2.get? l).getD [] ++
            List.replicate (w p.1 - ((p.2.get? l).getD []).length) ' ') := rfl
  rw [hcode, hspec, flatMap_append_space]
  cases he : (row.enum.map fun p =>
      (p.2.get? l).getD [] ++
        List.replicate (w p.1 - ((p.2.get? l).getD []).length) ' ').isEmpty with
  | false =>
    rw [if_neg (by decide : ¬(false = true))]
    exact rtrim_append_ws _ [' '] (by decide)
  | true =>
    rw [if_pos rfl, List.append_nil]

theorem asmOps_rel (args : List (List (List (List Char)))) :
    List.Forall₂ OpRel (asmOps args)
      ((claimRows args).flatMap fun r => r.map AsmOp.line ++ [AsmOp.rowEnd]) := by
  unfold asmOps claimRows
  rw [flatMap_map_comp]
  refine forall2_flatMap_same OpRel args _ _ fun row hrow => ?_
  rw [List.map_map]
  refine forall2_append OpRel _ _ _ _ ?_ ?_
  · refine forall2_map_same OpRel _ _ _ fun l hl => ?_
    show OpRel (.line (codeChunk (columnWidths args) row l))
      (.line (specLine (columnWidths args) row l))
    exact chunk_rel (columnWidths args) row l
  · exact List.Forall₂.cons trivial List.Forall₂.nil

/-- C8 counterexample: on the one-cell arrangement whose cell line is `"a "`,
`assemble` returns `"a"` while the claim's pad-and-join description yields
`"a "` — the padded page is trimmed, so trailing whitespace promised by the
padding never appears. -/
theorem c8_counterexample :
    assemble [[[['a', ' ']]]] = ['a'] ∧
      assembleSpec [[[['a', ' ']]]] = ['a', ' '] ∧
      assemble [[[['a', ' ']]]] ≠ assembleSpec [[[['a', ' ']]]] := by
  refine ⟨by decide, by decide, by decide⟩

/-- C8 amended: `assemble` computes the claim's page — per-column maximum
widths, per-row line counts, cells padded and joined left-to-right with one
space (plus a per-cell trailing space), rows separated by one blank line — and
then trims it: each emitted line is right-trimmed, whitespace-only lines
vanish together with their line break (collapsing the blank row separator when
they open a row-group), and the page's outer whitespace is trimmed; formally,
`assemble` equals the trimming fold `cleanupRows` applied to the claim's rows
of padded, space-joined lines. -/
theorem c8_assemble_eq_cleanup :
    ∀ args : List (List (List (List Char))),
      assemble args = cleanupRows (claimRows args) := by
  intro args
  unfold assemble cleanupRows
  rw [asmInv_extract _ _ (asmFold_inv (asmOps args) [] { s := [], t := [] }
    ⟨rfl, Or.inl rfl, fun c hc => absurd hc (by simp)⟩)]
  rw [asmFold_congr _ _ (asmOps_rel args)]

theorem c2_witness :
    ((EventType.init = EventType.init ∨ EventType.init = EventType.internal) ∧
     (3 : Int) ≠ ((2 : Nat) : Int) ∧ jsTop [1] = some 1) ∧
      (otherTrackChar 3 .init 2 [1] false).1 = '|' :=
  ⟨⟨Or.inl rfl, by decide, by decide⟩,
    (c2_connector_table 3 2 1 [1] false .init (Or.inl rfl) (by decide) (by decide)).1
      ⟨by decide, by decide⟩⟩

end CnysaModel
